import Mathlib

/-!
The event aggregator, the ICMP filter and the argument validation of traceroute-go

A shallow embedding of `trace/assembler.go`, `trace/route_response.go`,
`trace/event.go`, `trace/config.go` and of `validateArgs` in `main.go`.

Conventions of the embedding

* Go `int` values that come from the outside (configuration, event fields, packet
  lengths) are `Int`.  The emit cursor `currentRow` starts at `0` and is only ever
  incremented, so it is a `Nat`.
* `map[string][]string` is an association list with unique keys, in insertion order.
* A run-time panic (index out of range, `make` with a negative length) is `none`.
* The event channel is the list of events in arrival order; the rows sent on
  `responseCh.ch` are collected, as they were at the moment of sending, in `State.sent`.
* `time.Duration.String`, `net.Addr.String` and `net.IP.To4` belong to the Go standard
  library and are parameters of the embedding (`Stdlib`).
-/

set_option autoImplicit false

namespace Traceroute

/-! ## Data model -/

/-- The type `eventType` of `trace/event.go`. -/
inductive eventType where
  | eventTimeExceeded
  | eventUnavailable
  | eventNoResponse
deriving DecidableEq, Repr

/-- The two implementations of `net.Addr` the program handles: `*net.IPAddr` (sender of an
ICMP packet, source address) and `*net.UDPAddr` (destination). `IP` is the byte slice. -/
inductive Addr where
  | ipAddr (IP : List Nat) (Zone : String)
  | udpAddr (IP : List Nat) (Port : Int) (Zone : String)
deriving DecidableEq, Repr

/-- The struct `event` of `trace/event.go`; `rtt` is a `time.Duration` (nanoseconds). -/
structure event where
  eType : eventType
  id : Int
  source : Addr
  sendTTL : Int
  rtt : Int
deriving DecidableEq, Repr

/-- The struct `Config` of `trace/config.go`; `Timeout` in nanoseconds. -/
structure Config where
  DstAddr : Addr
  DstPort : Int
  NumProbes : Int
  Timeout : Int
  MaxTTL : Int
  SrcIP : Addr
  Parallelism : Int
deriving DecidableEq, Repr

/-- The struct `packetInfo` of `trace/assembler.go`; `sendTime` in nanoseconds. -/
structure packetInfo where
  id : Int
  ttl : Int
  sendTime : Int
deriving DecidableEq, Repr

/-- The methods of the Go standard library that the program calls and that are kept
abstract: `net.Addr.String`, `time.Duration.String` and `net.IP.To4` (on byte slices). -/
structure Stdlib where
  addrString : Addr → String
  durationString : Int → String
  ipTo4 : List Nat → List Nat

/-- A Go `map[string][]string`. -/
abbrev Buckets := List (String × List String)

/-- The struct `ResponseForTTL` of `trace/route_response.go`. -/
structure ResponseForTTL where
  TTL : Int
  PacketsForIP : Buckets
deriving DecidableEq, Repr

/-! ## `route_response.go` -/

/-- The function `newAssembleResponse`: `maxTTL` rows with `TTL = i + 1` and an empty
map each; `make` panics on a negative length. -/
def newAssembleResponse (maxTTL : Int) : Option (List ResponseForTTL) :=
  if maxTTL < 0 then none
  else some ((List.range maxTTL.toNat).map (fun (i : Nat) => { TTL := (i : Int) + 1, PacketsForIP := [] }))

/-! ## `collectResponse` -/

/-- The statement `m[k] = append(m[k], v)` on a map. -/
def appendBucket : Buckets → String → String → Buckets
  | [], k, v => [(k, [v])]
  | (k', vs) :: m, k, v =>
    if k' = k then (k', vs ++ [v]) :: m else (k', vs) :: appendBucket m k v

/-- The statement `m[k] = append(m[k], v)` on the map of row `i` of `response.Data`. -/
def appendRow : List ResponseForTTL → Nat → String → String → List ResponseForTTL
  | [], _, _, _ => []
  | r :: rows, 0, k, v => { r with PacketsForIP := appendBucket r.PacketsForIP k v } :: rows
  | r :: rows, i + 1, k, v => r :: appendRow rows i k v

/-- The inner loop `for _, packetsForIP := range ... { probesForTTL += len(packetsForIP) }`. -/
def probesForTTL (r : ResponseForTTL) : Nat :=
  (r.PacketsForIP.map (fun kv => kv.2.length)).sum

/-- The expression `strings.Split(sourceIP, ":")[0]`: the text before the first colon
(all of it when there is none). -/
def hostPart (s : String) : String :=
  String.mk (s.data.takeWhile (fun c => c != ':'))

/-- The state of `collectResponse` between two events. -/
structure State where
  /-- The slice `response.Data`. -/
  response : List ResponseForTTL
  /-- The key set of `processedEvents`. -/
  processedEvents : List Int
  lastTTL : Int
  currentRow : Nat
  /-- The rows sent on `responseCh.ch`, oldest first, as they were when sent. -/
  sent : List ResponseForTTL
  /-- The loop was left through `break`: the deferred `io.EOF` is sent. -/
  eof : Bool
deriving DecidableEq, Repr

/-- The loop `for currentRow < lastTTL { ... }`. The first argument is the slice
`response.Data[currentRow:]`, so `response.Data[currentRow]` is its head and an empty
slice is an index out of range. Returns the new cursor and the rows sent so far. -/
def advance (numProbes lastTTL : Int) :
    List ResponseForTTL → Nat → List ResponseForTTL → Option (Nat × List ResponseForTTL)
  | [], currentRow, sent =>
    if (currentRow : Int) < lastTTL then none else some (currentRow, sent)
  | r :: data, currentRow, sent =>
    if (currentRow : Int) < lastTTL then
      if (probesForTTL r : Int) = numProbes then
        advance numProbes lastTTL data (currentRow + 1) (sent ++ [r])
      else some (currentRow, sent)
    else some (currentRow, sent)

/-- The `switch e.eType` of `collectResponse`: the new rows and the new `lastTTL`. -/
def record (lib : Stdlib) (st : State) (e : event) : List ResponseForTTL × Int :=
  let i := (e.sendTTL - 1).toNat
  match e.eType with
  | eventType.eventNoResponse => (appendRow st.response i "None" "*", st.lastTTL)
  | eventType.eventUnavailable =>
    (appendRow st.response i (hostPart (lib.addrString e.source)) (lib.durationString e.rtt),
      if e.sendTTL < st.lastTTL then e.sendTTL else st.lastTTL)
  | eventType.eventTimeExceeded =>
    (appendRow st.response i (hostPart (lib.addrString e.source)) (lib.durationString e.rtt),
      st.lastTTL)

/-- One iteration of `for e := range events` in `collectResponse`. -/
def processEvent (lib : Stdlib) (cfg : Config) (st : State) (e : event) : Option State :=
  if e.sendTTL - 1 < 0 ∨ (st.response.length : Int) ≤ e.sendTTL - 1 then none
  else if e.id ∈ st.processedEvents then some st
  else
    let rl := record lib st e
    match advance cfg.NumProbes rl.2 (rl.1.drop st.currentRow) st.currentRow st.sent with
    | none => none
    | some (cur, sent) =>
      some { response := rl.1
             processedEvents := e.id :: st.processedEvents
             lastTTL := rl.2
             currentRow := cur
             sent := sent
             eof := decide ((cur : Int) = rl.2) }

/-- The loop `for e := range events` from a given state: it stops at `break`. -/
def collectFrom (lib : Stdlib) (cfg : Config) : State → List event → Option State
  | st, [] => some st
  | st, e :: es =>
    if st.eof then some st
    else
      match processEvent lib cfg st e with
      | none => none
      | some st' => collectFrom lib cfg st' es

/-- The state of `collectResponse` before the first event. -/
def initState (cfg : Config) (data : List ResponseForTTL) : State :=
  { response := data, processedEvents := [], lastTTL := cfg.MaxTTL, currentRow := 0,
    sent := [], eof := false }

/-- The function `Assembler.collectResponse` on the events in arrival order. -/
def collectResponse (lib : Stdlib) (cfg : Config) (events : List event) : Option State :=
  match newAssembleResponse cfg.MaxTTL with
  | none => none
  | some data => collectFrom lib cfg (initState cfg data) events


/-! ## Auxiliary notions used in the statements -/

/-- The number of outcome strings in row `t` (TTL `t`, index `t - 1`); `0` when there is
no such row. -/
def rowCount (rows : List ResponseForTTL) (t : Int) : Nat :=
  if 1 ≤ t then
    match rows[(t - 1).toNat]? with
    | some r => probesForTTL r
    | none => 0
  else 0

/-- What holds of the aggregator state between any two events. -/
structure Inv (cfg : Config) (st : State) : Prop where
  len : (st.response.length : Int) = cfg.MaxTTL
  ttl : st.response.map (fun r => r.TTL)
    = (List.range st.response.length).map (fun (i : Nat) => (i : Int) + 1)
  last : st.lastTTL ≤ cfg.MaxTTL
  cur : st.currentRow ≤ st.response.length
  sentTTL : st.sent.map (fun r => r.TTL)
    = (List.range st.currentRow).map (fun (i : Nat) => (i : Int) + 1)
  sentFull : ∀ r ∈ st.sent, (probesForTTL r : Int) = cfg.NumProbes
  eofCur : st.eof = true → (st.currentRow : Int) = st.lastTTL


/-- The number of events of a list that carry TTL `t`. -/
def probesAt (evs : List event) (t : Int) : Nat :=
  evs.countP (fun e => decide (t = e.sendTTL))

/-- No id of an event with TTL `≤ K` is carried by another event of the list. -/
def DistinctUpTo (K : Int) (evs : List event) : Prop :=
  evs.Pairwise (fun a b => (a.sendTTL ≤ K ∨ b.sendTTL ≤ K) → a.id ≠ b.id)

instance (K : Int) (evs : List event) : Decidable (DistinctUpTo K evs) := by
  unfold DistinctUpTo
  infer_instance

/-- The relation between a state `st` and the state `st1` that the iteration for an
event `e` with a new id leaves. -/
structure Step (cfg : Config) (st : State) (e : event) (st1 : State) : Prop where
  rows : ∀ t : Int, rowCount st1.response t
    = rowCount st.response t + (if t = e.sendTTL then 1 else 0)
  last : st1.lastTTL
    = (if e.eType = eventType.eventUnavailable ∧ e.sendTTL < st.lastTTL
        then e.sendTTL else st.lastTTL)
  seen : st1.processedEvents = e.id :: st.processedEvents
  mono : st.currentRow ≤ st1.currentRow
  newFull : ∀ t : Int, (st.currentRow : Int) < t → t ≤ st1.currentRow →
    (rowCount st1.response t : Int) = cfg.NumProbes
  curLe : (st.currentRow : Int) < st1.lastTTL → (st1.currentRow : Int) ≤ st1.lastTTL
  eof : st1.eof = decide ((st1.currentRow : Int) = st1.lastTTL)
  stop : (st1.currentRow : Int) < st1.lastTTL →
    (rowCount st1.response (st1.currentRow + 1) : Int) ≠ cfg.NumProbes
  frozen : (st.currentRow : Int) < e.sendTTL →
    st1.response.take st.currentRow = st.response.take st.currentRow
  sent : (st.currentRow : Int) < e.sendTTL → st.sent = st.response.take st.currentRow →
    st1.sent = st1.response.take st1.currentRow

/-- The state `st` with the events `rest` still to come, while the loop runs, when the
events with TTL `≤ K` have ids of their own and are at most `NumProbes` per TTL, and the
sweep is known to end at TTL `K` or before. -/
structure Sweep (cfg : Config) (K : Int) (st : State) (rest : List event) : Prop where
  inv : Inv cfg st
  notEof : st.eof = false
  range : ∀ e ∈ rest, 1 ≤ e.sendTTL ∧ e.sendTTL ≤ cfg.MaxTTL
  distinct : DistinctUpTo K rest
  fresh : ∀ e ∈ rest, e.sendTTL ≤ K → e.id ∉ st.processedEvents
  cap : ∀ t : Int, 1 ≤ t → t ≤ K →
    (rowCount st.response t : Int) + probesAt rest t ≤ cfg.NumProbes
  full : ∀ t : Int, 1 ≤ t → t ≤ st.currentRow →
    (rowCount st.response t : Int) = cfg.NumProbes
  curLt : (st.currentRow : Int) < st.lastTTL
  stop : (rowCount st.response (st.currentRow + 1) : Int) ≠ cfg.NumProbes
  bound : st.lastTTL ≤ K ∨
    ∃ e ∈ rest, e.eType = eventType.eventUnavailable ∧ e.sendTTL ≤ K

/-- The cursor `c` and the end flag `d` the loop must reach from state `st` on the events
`rest`: rows `1..c` get all their probes, no Unreachable event and no `lastTTL` lies below
`c`, and the loop ends (`d`) exactly when `c` is `lastTTL` or the TTL of an Unreachable
event. -/
structure Outcome (cfg : Config) (K : Int) (st : State) (rest : List event)
    (c : Nat) (d : Bool) : Prop where
  leK : (c : Int) ≤ K
  full : ∀ t : Int, 1 ≤ t → t ≤ c →
    (rowCount st.response t : Int) + probesAt rest t = cfg.NumProbes
  leLast : (c : Int) ≤ st.lastTTL
  leUnav : ∀ e ∈ rest, e.eType = eventType.eventUnavailable → (c : Int) ≤ e.sendTTL
  done : d = true → (c : Int) = st.lastTTL ∨
    ∃ e ∈ rest, e.eType = eventType.eventUnavailable ∧ e.sendTTL = c
  going : d = false →
    (rowCount st.response (c + 1) : Int) + probesAt rest (c + 1) ≠ cfg.NumProbes ∧
    (c : Int) < st.lastTTL ∧
    (∀ e ∈ rest, e.eType = eventType.eventUnavailable → (c : Int) < e.sendTTL) ∧
    (c : Int) < K

/-- The rows before the first event. -/
def freshRows (cfg : Config) : List ResponseForTTL :=
  (List.range cfg.MaxTTL.toNat).map
    (fun (i : Nat) => ({ TTL := (i : Int) + 1, PacketsForIP := [] } : ResponseForTTL))

/-- The ids carried by the events of a list that have TTL `t`. -/
def idsAt (evs : List event) (t : Int) : Finset Int :=
  ((evs.filter (fun e => decide (e.sendTTL = t))).map (fun e => e.id)).toFinset

/-- The ids of `idsAt` that the aggregator has not processed yet. -/
def pendingIds (evs : List event) (seen : List Int) (t : Int) : Finset Int :=
  (idsAt evs t).filter (fun i => i ∉ seen)

/-- The state `st` with the events `rest` still to come, when no TTL has more than
`NumProbes` ids left to fill its row, and the rows sent are the rows below the cursor. -/
structure Quota (cfg : Config) (st : State) (rest : List event) : Prop where
  inv : Inv cfg st
  range : ∀ e ∈ rest, 1 ≤ e.sendTTL ∧ e.sendTTL ≤ cfg.MaxTTL
  cap : ∀ t : Int, 1 ≤ t →
    (rowCount st.response t : Int) + (pendingIds rest st.processedEvents t).card
      ≤ cfg.NumProbes
  full : ∀ t : Int, 1 ≤ t → t ≤ st.currentRow →
    (rowCount st.response t : Int) = cfg.NumProbes
  same : st.sent = st.response.take st.currentRow

/-- A row that holds nothing, or only `"*"` markers in the bucket `"None"`. -/
def OnlyNone (r : ResponseForTTL) : Prop :=
  r.PacketsForIP = [] ∨ ∃ n : Nat, r.PacketsForIP = [("None", List.replicate (n + 1) "*")]

/-! ## `assemble`, `serveICMP`, `connectionServe` -/

/-- The field `IP` of a `*net.IPAddr` or `*net.UDPAddr`. -/
def Addr.IP : Addr → List Nat
  | Addr.ipAddr ip _ => ip
  | Addr.udpAddr ip _ _ => ip

/-- The inner loop of `assemble` for one `ttl`: the arguments `(ttl, dstPort)` of the
calls of `connectionCheck`, with `n` iterations left. -/
def probesOfHop (ttl : Int) : Nat → Int → List (Int × Int)
  | 0, _ => []
  | n + 1, dstPort => (ttl, dstPort) :: probesOfHop ttl n (dstPort + 1)

/-- The outer loop of `assemble` with `hops` iterations left: `dstPort` is not reset
between two values of `ttl`. -/
def probesOfHops (numProbes : Nat) : Nat → Int → Int → List (Int × Int)
  | 0, _, _ => []
  | hops + 1, ttl, dstPort =>
    probesOfHop ttl numProbes dstPort
      ++ probesOfHops numProbes hops (ttl + 1) (dstPort + numProbes)

/-- The loops of `Assembler.assemble`: the arguments `(ttl, dstPort)` of the successive
calls of `connectionCheck`, as long as none of them returns an error. -/
def assemble (cfg : Config) : List (Int × Int) :=
  probesOfHops cfg.NumProbes.toNat cfg.MaxTTL.toNat 1 cfg.DstPort

/-- The expression `a.socketDstPortToPacket[dstPort]` on a map given as the list of its
writes, latest first: the zero `packetInfo` when the key is absent. -/
def lookupPacket : List (Int × packetInfo) → Int → packetInfo
  | [], _ => { id := 0, ttl := 0, sendTime := 0 }
  | (k, info) :: table, dstPort => if k = dstPort then info else lookupPacket table dstPort

/-- The write to `a.socketDstPortToPacket[dstPort]` at the start of `connectionServe`. -/
def registerPacket (table : List (Int × packetInfo)) (ttl dstPort sendTime : Int) :
    List (Int × packetInfo) :=
  (dstPort, { id := dstPort, ttl := ttl, sendTime := sendTime }) :: table

/-- The function `binary.BigEndian.Uint16` of the Go standard library on a slice of two
bytes: `uint16(b[1]) | uint16(b[0])<<8`. -/
def bigEndianUint16 (b : List Nat) : Nat :=
  (b.getD 1 0 ||| (b.getD 0 0 <<< 8)) % 65536

/-- One iteration of the loop of `Assembler.serveICMP` after a successful `ReadFrom`:
`packetBuf` is the buffer, `n` the number of bytes read, `now` the time in nanoseconds.
The result is the event sent, `none` when the packet is dropped. -/
def serveICMP (lib : Stdlib) (cfg : Config) (table : List (Int × packetInfo))
    (packetBuf : List Nat) (n : Int) (fromAddr : Addr) (now : Int) : Option event :=
  if n < 32 then none
  else if packetBuf.getD 0 0 ≠ 11 then none
  else if ¬ ((packetBuf.drop 24).take 4 = lib.ipTo4 cfg.DstAddr.IP) then none
  else
    let dstPort : Int := (bigEndianUint16 ((packetBuf.drop 30).take 2) : Nat)
    let info := lookupPacket table dstPort
    some { eType := eventType.eventTimeExceeded
           id := info.id
           source := fromAddr
           sendTTL := info.ttl
           rtt := now - info.sendTime }

/-- The classes of the error that `socket.ReadFrom` returns in `connectionServe`. -/
inductive readError where
  | noError
  | deadlineExceeded
  | connectionRefused
  | other
deriving DecidableEq, Repr

/-- The function `Assembler.connectionServe` after the write to the table: the event it
sends (`some none` when it sends none); `none` is the nil dereference of `err.Error()`. -/
def connectionServe (cfg : Config) (ttl dstPort sendTime now : Int) (err : readError) :
    Option (Option event) :=
  let ev : event :=
    { eType := eventType.eventTimeExceeded, id := dstPort, source := cfg.DstAddr,
      sendTTL := ttl, rtt := now - sendTime }
  match err with
  | readError.noError => none
  | readError.deadlineExceeded => some (some { ev with eType := eventType.eventNoResponse })
  | readError.connectionRefused => some (some { ev with eType := eventType.eventUnavailable })
  | readError.other => some none

/-! ## `main.go` -/

/-- The command-line flags of `main.go`; `timeout` in nanoseconds. -/
structure Flags where
  dstPort : Int
  numProbes : Int
  timeout : Int
  parallelism : Int
  maxTTL : Int
  srcIP : String
  returnJson : Bool
deriving DecidableEq, Repr

/-- The function `validateArgs`: `none` is the `nil` error. -/
def validateArgs (f : Flags) : Option String :=
  if f.dstPort ≤ 0 then some "destination port must be a positive integer"
  else if f.parallelism ≤ 0 then some "parallelism must be a positive integer"
  else if f.numProbes ≤ 0 then some "number of probes must be a positive integer"
  else if f.numProbes > 10 then some "number of probes cannot be more than 10"
  else if f.maxTTL ≤ 0 then some "max hops must be a positive integer"
  else if f.maxTTL > 255 then some "max hops cannot be more than 255"
  else if f.timeout = 0 then some "timeout must be positive"
  else none

/-- The `trace.Config` that `main` builds from the flags and the two resolved addresses. -/
def mainConfig (f : Flags) (dstAddr srcIP : Addr) : Config :=
  { DstAddr := dstAddr, DstPort := f.dstPort, NumProbes := f.numProbes,
    Timeout := f.timeout, MaxTTL := f.maxTTL, SrcIP := srcIP, Parallelism := f.parallelism }

/-! ## Concrete inputs -/

/-- A stand-in for the standard library at concrete inputs. -/
def demoLib : Stdlib :=
  { addrString := fun a =>
      match a with
      | Addr.ipAddr _ _ => "10.0.0.1"
      | Addr.udpAddr _ _ _ => "10.0.0.9:33434"
    durationString := fun _ => "1ms"
    ipTo4 := fun ip => ip }

/-- The destination `10.0.0.9:33434`. -/
def demoDst : Addr := Addr.udpAddr [10, 0, 0, 9] 33434 ""

/-- A router `10.0.0.1` on the path. -/
def demoHop : Addr := Addr.ipAddr [10, 0, 0, 1] ""

/-- A configuration with the given `MaxTTL` and `NumProbes`. -/
def demoConfig (maxTTL numProbes : Int) : Config :=
  { DstAddr := demoDst, DstPort := 33434, NumProbes := numProbes, Timeout := 5000000000,
    MaxTTL := maxTTL, SrcIP := Addr.ipAddr [0, 0, 0, 0] "", Parallelism := 4 }

/-- An event of the given kind, id and TTL. -/
def demoEvent (k : eventType) (id ttl : Int) : event :=
  { eType := k, id := id, sendTTL := ttl, rtt := 1000000,
    source := match k with
      | eventType.eventTimeExceeded => demoHop
      | _ => demoDst }

/-- An ICMP Time Exceeded packet in the 1024-byte buffer: type 11, embedded destination
`10.0.0.9`, embedded UDP destination port `hi * 256 + lo`. -/
def demoPacket (hi lo : Nat) : List Nat :=
  [11] ++ List.replicate 23 0 ++ [10, 0, 0, 9] ++ [0, 0] ++ [hi, lo] ++ List.replicate 992 0

/-- The events of the scenario with `maxTTL = 3`, `numProbes = 2`: two Time Exceeded at
TTL 1, two time-outs at TTL 2, two Unreachable at TTL 3. -/
def scenarioFull : List event :=
  [demoEvent eventType.eventTimeExceeded 1 1, demoEvent eventType.eventTimeExceeded 2 1,
   demoEvent eventType.eventNoResponse 3 2, demoEvent eventType.eventNoResponse 4 2,
   demoEvent eventType.eventUnavailable 5 3, demoEvent eventType.eventUnavailable 6 3]

/-- The scenario in which the destination answers at TTL 2, with one event of TTL 3
arriving in between. -/
def scenarioEarly : List event :=
  [demoEvent eventType.eventTimeExceeded 1 1, demoEvent eventType.eventNoResponse 5 3,
   demoEvent eventType.eventTimeExceeded 2 1, demoEvent eventType.eventUnavailable 3 2,
   demoEvent eventType.eventUnavailable 4 2]

/-- The scenario in which every probe times out (`maxTTL = 2`, `numProbes = 2`), the
events of TTL 2 arriving first. -/
def scenarioSilent : List event :=
  [demoEvent eventType.eventNoResponse 3 2, demoEvent eventType.eventNoResponse 1 1,
   demoEvent eventType.eventNoResponse 4 2, demoEvent eventType.eventNoResponse 2 1]

/-- The flags `-p 65535 -q 1 -m 2` with the other defaults. -/
def demoFlags : Flags :=
  { dstPort := 65535, numProbes := 1, timeout := 5000000000, parallelism := 16, maxTTL := 2,
    srcIP := "0.0.0.0", returnJson := false }

/-- The default flags of `main.go`. -/
def defaultFlags : Flags :=
  { dstPort := 33434, numProbes := 3, timeout := 5000000000, parallelism := 16, maxTTL := 30,
    srcIP := "0.0.0.0", returnJson := false }

/-- A run with `maxTTL = 3`, `numProbes = 1` in which the probe of TTL 1 causes two events
with one id (Time Exceeded from the listener, then the time-out of its socket) and the
destination answers the probe of TTL 2. -/
def scenarioRouter : List event :=
  [demoEvent eventType.eventTimeExceeded 1 1, demoEvent eventType.eventNoResponse 1 1,
   demoEvent eventType.eventUnavailable 2 2]

/-- The events of the scenario with `maxTTL = 3`, `numProbes = 2` that arrive before the
first Unreachable event of TTL 2: rows 1 and 2 are complete. -/
def scenarioBefore : List event :=
  [demoEvent eventType.eventTimeExceeded 1 1, demoEvent eventType.eventTimeExceeded 2 1,
   demoEvent eventType.eventNoResponse 3 2, demoEvent eventType.eventNoResponse 4 2]

/-- A probe of TTL 1 with two events of one id, and a time-out at TTL 2 (`maxTTL = 2`,
`numProbes = 1`). -/
def scenarioTwice : List event :=
  [demoEvent eventType.eventTimeExceeded 1 1, demoEvent eventType.eventNoResponse 1 1,
   demoEvent eventType.eventNoResponse 2 2]

/-! ## Events that share an id, and the contents of a row -/

/-- The events that pass the `processedEvents` test when the ids `seen` are already in
the map: of the events with one id, the first to arrive. -/
def firstDeliveries (seen : List Int) : List event → List event
  | [] => []
  | e :: es =>
    if e.id ∈ seen then firstDeliveries seen es
    else e :: firstDeliveries (e.id :: seen) es

/-- The bucket key and the outcome string that the `switch e.eType` of `collectResponse`
records for an event. -/
def outcomeOf (lib : Stdlib) (e : event) : String × String :=
  match e.eType with
  | eventType.eventNoResponse => ("None", "*")
  | eventType.eventUnavailable =>
    (hostPart (lib.addrString e.source), lib.durationString e.rtt)
  | eventType.eventTimeExceeded =>
    (hostPart (lib.addrString e.source), lib.durationString e.rtt)

/-- The map read `m[key]`: the empty slice when the key is absent. -/
def bucketOf : Buckets → String → List String
  | [], _ => []
  | (k, vs) :: m, key => if k = key then vs else bucketOf m key

/-- The bucket `key` of the row with TTL `t` in a list of rows that starts at TTL 1; empty
when there is no such row. -/
def rowBucket (rows : List ResponseForTTL) (t : Int) (key : String) : List String :=
  if 1 ≤ t then
    match rows[(t - 1).toNat]? with
    | some r => bucketOf r.PacketsForIP key
    | none => []
  else []

/-- The outcome strings that the events of a list with TTL `t` record in the bucket `key`,
in the order of the list. -/
def recorded (lib : Stdlib) (evs : List event) (t : Int) (key : String) : List String :=
  (evs.filter (fun e => decide (e.sendTTL = t ∧ (outcomeOf lib e).1 = key))).map
    (fun e => (outcomeOf lib e).2)

/-- The outcome recorded for the first event of a list that carries the id `x`. -/
def outcomeOfId (lib : Stdlib) (evs : List event) (x : Int) : String × String :=
  match evs.find? (fun e => decide (e.id = x)) with
  | some e => outcomeOf lib e
  | none => ("", "")

/-! ## Elementary facts about the row operations -/

theorem probesForTTL_appendBucket (m : Buckets) (k v : String) :
    ((appendBucket m k v).map (fun kv => kv.2.length)).sum
      = (m.map (fun kv => kv.2.length)).sum + 1 := by
  induction m with
  | nil => simp [appendBucket]
  | cons kv m ih =>
    obtain ⟨k', vs⟩ := kv
    by_cases h : k' = k
    · simp [appendBucket, h]; omega
    · simp [appendBucket, h, ih]; omega

theorem appendRow_length (rows : List ResponseForTTL) (i : Nat) (k v : String) :
    (appendRow rows i k v).length = rows.length := by
  induction rows generalizing i with
  | nil => simp [appendRow]
  | cons r rows ih => cases i <;> simp [appendRow, ih]

theorem appendRow_map_TTL (rows : List ResponseForTTL) (i : Nat) (k v : String) :
    (appendRow rows i k v).map (fun r => r.TTL) = rows.map (fun r => r.TTL) := by
  induction rows generalizing i with
  | nil => simp [appendRow]
  | cons r rows ih => cases i <;> simp [appendRow, ih]

theorem appendRow_getElem?_ne (rows : List ResponseForTTL) (i j : Nat) (k v : String)
    (h : j ≠ i) : (appendRow rows i k v)[j]? = rows[j]? := by
  induction rows generalizing i j with
  | nil => simp [appendRow]
  | cons r rows ih =>
    cases i with
    | zero =>
      cases j with
      | zero => exact absurd rfl h
      | succ j => simp [appendRow]
    | succ i =>
      cases j with
      | zero => simp [appendRow]
      | succ j => simp [appendRow]; exact ih i j (by omega)

theorem appendRow_getElem?_eq (rows : List ResponseForTTL) (i : Nat) (k v : String) :
    (appendRow rows i k v)[i]?
      = (rows[i]?).map (fun r => { r with PacketsForIP := appendBucket r.PacketsForIP k v }) := by
  induction rows generalizing i with
  | nil => simp [appendRow]
  | cons r rows ih =>
    cases i with
    | zero => simp [appendRow]
    | succ i => simp [appendRow]; exact ih i

theorem appendRow_take (rows : List ResponseForTTL) (i c : Nat) (k v : String)
    (h : c ≤ i) : (appendRow rows i k v).take c = rows.take c := by
  induction rows generalizing i c with
  | nil => simp [appendRow]
  | cons r rows ih =>
    cases c with
    | zero => simp
    | succ c =>
      cases i with
      | zero => omega
      | succ i => simp [appendRow]; exact ih i c (by omega)

theorem rowCount_appendRow (rows : List ResponseForTTL) (u t : Int) (k v : String)
    (hu : 1 ≤ u) (hlen : u ≤ rows.length) :
    rowCount (appendRow rows (u - 1).toNat k v) t
      = rowCount rows t + (if t = u then 1 else 0) := by
  unfold rowCount
  by_cases ht : 1 ≤ t
  · simp only [ht, if_true]
    by_cases htu : t = u
    · subst htu
      rw [appendRow_getElem?_eq]
      have hlt : (t - 1).toNat < rows.length := by omega
      rw [List.getElem?_eq_getElem hlt]
      simp [probesForTTL, probesForTTL_appendBucket]
    · have hne : (t - 1).toNat ≠ (u - 1).toNat := by omega
      rw [appendRow_getElem?_ne _ _ _ _ _ hne]
      simp [htu]
  · have : t ≠ u := by omega
    simp [ht, this]

/-! ## The emit loop -/

theorem advance_spec (N L : Int) :
    ∀ (data : List ResponseForTTL) (c : Nat) (sent : List ResponseForTTL),
      L ≤ (c : Int) + data.length →
      ∃ k : Nat, k ≤ data.length ∧
        advance N L data c sent = some (c + k, sent ++ data.take k) ∧
        (∀ r ∈ data.take k, (probesForTTL r : Int) = N) ∧
        (k = 0 ∨ ((c + k : Nat) : Int) ≤ L) ∧
        (((c + k : Nat) : Int) < L →
          ∃ r, data[k]? = some r ∧ (probesForTTL r : Int) ≠ N) := by
  intro data
  induction data with
  | nil =>
    intro c sent h
    refine ⟨0, le_refl _, ?_, ?_, Or.inl rfl, ?_⟩
    · have : ¬ ((c : Int) < L) := by simp at h; omega
      simp [advance, this]
    · simp
    · intro h'; simp at h h'; omega
  | cons r data ih =>
    intro c sent h
    by_cases hc : (c : Int) < L
    · by_cases hr : (probesForTTL r : Int) = N
      · obtain ⟨k, hk, hadv, hfull, hle, hstop⟩ :=
          ih (c + 1) (sent ++ [r]) (by simp at h ⊢; omega)
        refine ⟨k + 1, by simp; omega, ?_, ?_, Or.inr ?_, ?_⟩
        · simp only [advance, hc, hr, if_true, hadv]
          simp [Nat.add_assoc, Nat.add_comm 1 k]
        · intro x hx
          simp only [List.take_succ_cons, List.mem_cons] at hx
          rcases hx with rfl | hx
          · exact hr
          · exact hfull x hx
        · rcases hle with rfl | hle
          · simp; omega
          · have : c + (k + 1) = c + 1 + k := by omega
            rw [this]; exact hle
        · intro h'
          have e : c + (k + 1) = c + 1 + k := by omega
          rw [e] at h'
          simpa using hstop h'
      · refine ⟨0, Nat.zero_le _, ?_, ?_, Or.inl rfl, ?_⟩
        · simp [advance, hc, hr]
        · simp
        · intro _; exact ⟨r, by simp, hr⟩
    · refine ⟨0, Nat.zero_le _, ?_, ?_, Or.inl rfl, ?_⟩
      · simp [advance, hc]
      · simp
      · intro h'; simp at h'; omega

/-! ## One event -/

theorem record_eq (lib : Stdlib) (st : State) (e : event) :
    ∃ key val : String,
      (record lib st e).1 = appendRow st.response (e.sendTTL - 1).toNat key val ∧
      (record lib st e).2
        = (if e.eType = eventType.eventUnavailable ∧ e.sendTTL < st.lastTTL
            then e.sendTTL else st.lastTTL) := by
  unfold record
  cases h : e.eType
  · exact ⟨_, _, rfl, by simp⟩
  · refine ⟨_, _, rfl, ?_⟩
    by_cases h' : e.sendTTL < st.lastTTL <;> simp [h']
  · exact ⟨_, _, rfl, by simp⟩

theorem record_length (lib : Stdlib) (st : State) (e : event) :
    (record lib st e).1.length = st.response.length := by
  obtain ⟨key, val, h1, _⟩ := record_eq lib st e
  rw [h1, appendRow_length]

theorem record_lastTTL_le (lib : Stdlib) (st : State) (e : event) :
    (record lib st e).2 ≤ st.lastTTL := by
  obtain ⟨key, val, _, h2⟩ := record_eq lib st e
  rw [h2]; split <;> omega

theorem processEvent_dup (lib : Stdlib) (cfg : Config) (st : State) (e : event)
    (h1 : 1 ≤ e.sendTTL) (h2 : e.sendTTL ≤ st.response.length)
    (hd : e.id ∈ st.processedEvents) : processEvent lib cfg st e = some st := by
  have : ¬ (e.sendTTL - 1 < 0 ∨ (st.response.length : Int) ≤ e.sendTTL - 1) := by omega
  simp only [processEvent, this, hd, if_true, if_false]

/-- What one iteration does with an event whose id is new, when the cursor and
`lastTTL` are within the rows. -/
theorem processEvent_fresh (lib : Stdlib) (cfg : Config) (st : State) (e : event)
    (h1 : 1 ≤ e.sendTTL) (h2 : e.sendTTL ≤ st.response.length)
    (hd : e.id ∉ st.processedEvents)
    (hc : st.currentRow ≤ st.response.length) (hl : st.lastTTL ≤ st.response.length) :
    ∃ k : Nat, st.currentRow + k ≤ st.response.length ∧
      processEvent lib cfg st e = some
        { response := (record lib st e).1
          processedEvents := e.id :: st.processedEvents
          lastTTL := (record lib st e).2
          currentRow := st.currentRow + k
          sent := st.sent ++ ((record lib st e).1.drop st.currentRow).take k
          eof := decide (((st.currentRow + k : Nat) : Int) = (record lib st e).2) } ∧
      (∀ r ∈ ((record lib st e).1.drop st.currentRow).take k,
        (probesForTTL r : Int) = cfg.NumProbes) ∧
      (k = 0 ∨ ((st.currentRow + k : Nat) : Int) ≤ (record lib st e).2) ∧
      (((st.currentRow + k : Nat) : Int) < (record lib st e).2 →
        ∃ r, (record lib st e).1[st.currentRow + k]? = some r ∧
          (probesForTTL r : Int) ≠ cfg.NumProbes) := by
  have hrange : ¬ (e.sendTTL - 1 < 0 ∨ (st.response.length : Int) ≤ e.sendTTL - 1) := by omega
  have hlen := record_length lib st e
  have hlast := record_lastTTL_le lib st e
  have hpre : (record lib st e).2
      ≤ (st.currentRow : Int) + ((record lib st e).1.drop st.currentRow).length := by
    rw [List.length_drop, hlen]; omega
  obtain ⟨k, hk, hadv, hfull, hle, hstop⟩ :=
    advance_spec cfg.NumProbes (record lib st e).2 _ st.currentRow st.sent hpre
  rw [List.length_drop, hlen] at hk
  refine ⟨k, by omega, ?_, hfull, hle, ?_⟩
  · simp only [processEvent, hrange, hd, if_false, hadv]
  · intro h
    obtain ⟨r, hr, hne⟩ := hstop h
    rw [List.getElem?_drop] at hr
    exact ⟨r, hr, hne⟩

/-! ## The invariant of the loop, for arbitrary events -/

theorem map_range_take (f : Nat → Int) (n c : Nat) (h : c ≤ n) :
    ((List.range n).map f).take c = (List.range c).map f := by
  rw [← List.map_take, List.take_range, Nat.min_eq_left h]

theorem Inv_init (cfg : Config) (h : 0 ≤ cfg.MaxTTL) :
    ∃ data, newAssembleResponse cfg.MaxTTL = some data ∧ Inv cfg (initState cfg data) := by
  have hn : ¬ cfg.MaxTTL < 0 := by omega
  refine ⟨(List.range cfg.MaxTTL.toNat).map
      (fun (i : Nat) => { TTL := (i : Int) + 1, PacketsForIP := [] }), ?_, ?_⟩
  · simp only [newAssembleResponse, hn, if_false]
  · constructor <;> simp [initState, Function.comp_def, h]

theorem Inv_processEvent (lib : Stdlib) (cfg : Config) (st : State) (e : event)
    (hI : Inv cfg st) (h1 : 1 ≤ e.sendTTL) (h2 : e.sendTTL ≤ cfg.MaxTTL) :
    ∃ st', processEvent lib cfg st e = some st' ∧ Inv cfg st' := by
  have h2' : e.sendTTL ≤ st.response.length := by rw [hI.len]; exact h2
  by_cases hd : e.id ∈ st.processedEvents
  · exact ⟨st, processEvent_dup lib cfg st e h1 h2' hd, hI⟩
  · obtain ⟨k, hk, hstep, hfull, hle, _⟩ :=
      processEvent_fresh lib cfg st e h1 h2' hd hI.cur (by rw [hI.len]; exact hI.last)
    refine ⟨_, hstep, ?_⟩
    have hlen := record_length lib st e
    have httl : (record lib st e).1.map (fun r => r.TTL)
        = (List.range st.response.length).map (fun (i : Nat) => (i : Int) + 1) := by
      obtain ⟨key, val, hr, _⟩ := record_eq lib st e
      rw [hr, appendRow_map_TTL, hI.ttl]
    constructor
    · simp only [hlen]; exact hI.len
    · simp only [hlen]; exact httl
    · exact le_trans (record_lastTTL_le lib st e) hI.last
    · simp only [hlen]; exact hk
    · simp only [List.map_append, List.map_take, List.map_drop, httl, hI.sentTTL]
      rw [← map_range_take (fun (i : Nat) => (i : Int) + 1) st.response.length st.currentRow hI.cur,
        ← List.take_add, map_range_take _ _ _ hk]
    · intro r hr
      simp only [List.mem_append] at hr
      rcases hr with hr | hr
      · exact hI.sentFull r hr
      · exact hfull r hr
    · intro h
      simpa using h

theorem Inv_collectFrom (lib : Stdlib) (cfg : Config) (evs : List event) :
    ∀ st, Inv cfg st → (∀ e ∈ evs, 1 ≤ e.sendTTL ∧ e.sendTTL ≤ cfg.MaxTTL) →
      ∃ st', collectFrom lib cfg st evs = some st' ∧ Inv cfg st' := by
  induction evs with
  | nil => intro st hI _; exact ⟨st, rfl, hI⟩
  | cons e es ih =>
    intro st hI hr
    by_cases hb : st.eof = true
    · exact ⟨st, by simp [collectFrom, hb], hI⟩
    · obtain ⟨h1, h2⟩ := hr e (List.mem_cons_self _ _)
      obtain ⟨st1, hs, hI1⟩ := Inv_processEvent lib cfg st e hI h1 h2
      obtain ⟨st', hc, hI'⟩ := ih st1 hI1 (fun x hx => hr x (List.mem_cons_of_mem _ hx))
      exact ⟨st', by simp [collectFrom, hb, hs, hc], hI'⟩

theorem Inv_collectResponse (lib : Stdlib) (cfg : Config) (evs : List event)
    (hT : 0 ≤ cfg.MaxTTL) (hr : ∀ e ∈ evs, 1 ≤ e.sendTTL ∧ e.sendTTL ≤ cfg.MaxTTL) :
    ∃ st, collectResponse lib cfg evs = some st ∧ Inv cfg st := by
  obtain ⟨data, hd, hI⟩ := Inv_init cfg hT
  obtain ⟨st, hs, hI'⟩ := Inv_collectFrom lib cfg evs _ hI hr
  exact ⟨st, by simp [collectResponse, hd, hs], hI'⟩

/-! ## Events after the end, and events whose id was seen before -/

theorem collectFrom_eof (lib : Stdlib) (cfg : Config) (st : State) (evs : List event)
    (h : st.eof = true) : collectFrom lib cfg st evs = some st := by
  cases evs with
  | nil => rfl
  | cons e es => simp [collectFrom, h]

theorem collectFrom_append (lib : Stdlib) (cfg : Config) (a b : List event) :
    ∀ st, collectFrom lib cfg st (a ++ b)
      = (collectFrom lib cfg st a).bind (fun s => collectFrom lib cfg s b) := by
  induction a with
  | nil => intro st; simp [collectFrom]
  | cons e es ih =>
    intro st
    by_cases hb : st.eof = true
    · simp [collectFrom, hb, collectFrom_eof]
    · cases hs : processEvent lib cfg st e with
      | none => simp [collectFrom, hb, hs]
      | some st1 => simp [collectFrom, hb, hs, ih]

theorem processEvent_some (lib : Stdlib) (cfg : Config) (st st' : State) (e : event)
    (h : processEvent lib cfg st e = some st') :
    st'.response.length = st.response.length ∧ e.id ∈ st'.processedEvents ∧
      ∀ x ∈ st.processedEvents, x ∈ st'.processedEvents := by
  unfold processEvent at h
  split at h
  · exact absurd h (by simp)
  · split at h
    · rename_i hd
      cases h
      exact ⟨rfl, hd, fun x hx => hx⟩
    · simp only at h
      split at h
      · exact absurd h (by simp)
      · cases h
        exact ⟨record_length lib st e, List.mem_cons_self _ _,
          fun x hx => List.mem_cons_of_mem _ hx⟩

theorem collectFrom_some (lib : Stdlib) (cfg : Config) (evs : List event) :
    ∀ st st', collectFrom lib cfg st evs = some st' → st'.eof = false →
      st'.response.length = st.response.length ∧
      (∀ e ∈ evs, e.id ∈ st'.processedEvents) ∧
      ∀ x ∈ st.processedEvents, x ∈ st'.processedEvents := by
  induction evs with
  | nil =>
    intro st st' h _
    simp only [collectFrom, Option.some.injEq] at h
    subst h
    exact ⟨rfl, by simp, fun x hx => hx⟩
  | cons e es ih =>
    intro st st' h hne
    by_cases hb : st.eof = true
    · rw [collectFrom_eof lib cfg st _ hb] at h
      cases h
      rw [hb] at hne
      exact absurd hne (by simp)
    · cases hs : processEvent lib cfg st e with
      | none => simp [collectFrom, hb, hs] at h
      | some st1 =>
        have h' : collectFrom lib cfg st1 es = some st' := by
          simpa [collectFrom, hb, hs] using h
        obtain ⟨l1, m1, s1⟩ := processEvent_some lib cfg st st1 e hs
        obtain ⟨l2, m2, s2⟩ := ih st1 st' h' hne
        refine ⟨by rw [l2, l1], ?_, fun x hx => s2 x (s1 x hx)⟩
        intro x hx
        rcases List.mem_cons.mp hx with rfl | hx
        · exact s2 _ m1
        · exact m2 x hx

/-! ## Counting the probes of a TTL -/

theorem probesAt_cons (e : event) (es : List event) (t : Int) :
    probesAt (e :: es) t = probesAt es t + (if t = e.sendTTL then 1 else 0) := by
  simp [probesAt, List.countP_cons]

theorem probesAt_pos (evs : List event) (e : event) (h : e ∈ evs) :
    1 ≤ probesAt evs e.sendTTL := by
  unfold probesAt
  exact List.countP_pos_iff.mpr ⟨e, h, by simp⟩

theorem rowCount_record (lib : Stdlib) (st : State) (e : event) (t : Int)
    (h1 : 1 ≤ e.sendTTL) (h2 : e.sendTTL ≤ st.response.length) :
    rowCount (record lib st e).1 t
      = rowCount st.response t + (if t = e.sendTTL then 1 else 0) := by
  obtain ⟨key, val, hr, _⟩ := record_eq lib st e
  rw [hr]
  exact rowCount_appendRow _ _ _ _ _ h1 h2

theorem rowCount_succ (rows : List ResponseForTTL) (c : Nat) (r : ResponseForTTL)
    (h : rows[c]? = some r) : rowCount rows ((c : Int) + 1) = probesForTTL r := by
  unfold rowCount
  have h1 : (1 : Int) ≤ (c : Int) + 1 := by omega
  have h2 : ((c : Int) + 1 - 1).toNat = c := by omega
  simp [h1, h2, h]

theorem rowCount_of_sent (rows : List ResponseForTTL) (c k : Nat) (N : Int)
    (hk : c + k ≤ rows.length)
    (h : ∀ r ∈ (rows.drop c).take k, (probesForTTL r : Int) = N)
    (t : Int) (h1 : (c : Int) < t) (h2 : t ≤ ((c + k : Nat) : Int)) :
    (rowCount rows t : Int) = N := by
  obtain ⟨i, rfl⟩ : ∃ i : Nat, t = (i : Int) + 1 := ⟨(t - 1).toNat, by omega⟩
  have hi : i < rows.length := by omega
  have hget : rows[i]? = some rows[i] := List.getElem?_eq_getElem hi
  rw [rowCount_succ rows i _ hget]
  apply h
  apply List.getElem?_mem (n := i - c)
  rw [List.getElem?_take_of_lt (by omega), List.getElem?_drop]
  have : c + (i - c) = i := by omega
  rw [this, hget]

/-! ## One event with a new id, seen from the rows -/

theorem step_fresh (lib : Stdlib) (cfg : Config) (st : State) (e : event)
    (hI : Inv cfg st) (h1 : 1 ≤ e.sendTTL) (h2 : e.sendTTL ≤ cfg.MaxTTL)
    (hd : e.id ∉ st.processedEvents) :
    ∃ st1, processEvent lib cfg st e = some st1 ∧ Inv cfg st1 ∧ Step cfg st e st1 := by
  have h2' : e.sendTTL ≤ st.response.length := by rw [hI.len]; exact h2
  obtain ⟨st1, hs, hI1⟩ := Inv_processEvent lib cfg st e hI h1 h2
  obtain ⟨k, hk, hstep, hfull, hle, hstop⟩ :=
    processEvent_fresh lib cfg st e h1 h2' hd hI.cur (by rw [hI.len]; exact hI.last)
  rw [hs] at hstep
  cases hstep
  refine ⟨_, hs, hI1, ?_⟩
  have hlen := record_length lib st e
  constructor
  · intro t; exact rowCount_record lib st e t h1 h2'
  · exact (record_eq lib st e).choose_spec.choose_spec.2
  · rfl
  · simp
  · intro t ht1 ht2
    exact rowCount_of_sent _ st.currentRow k _ (by rw [hlen]; exact hk) hfull t ht1 ht2
  · intro hlt
    dsimp only at hlt ⊢
    rcases hle with rfl | hle
    · simp only [Nat.add_zero]; omega
    · exact hle
  · rfl
  · intro hlt
    obtain ⟨r, hr, hne⟩ := hstop hlt
    have := rowCount_succ _ _ r hr
    simp only at this ⊢
    push_cast at this ⊢
    rw [this]; exact hne
  · intro hlt
    obtain ⟨key, val, hr, _⟩ := record_eq lib st e
    dsimp only
    rw [hr]
    exact appendRow_take _ _ _ _ _ (by omega)
  · intro hlt hsame
    obtain ⟨key, val, hr, _⟩ := record_eq lib st e
    dsimp only
    rw [List.take_add, hsame, hr, appendRow_take _ _ _ _ _ (by omega)]

/-! ## The sweep: where the cursor stops -/

theorem Sweep.cur_lt_ttl {cfg : Config} {K : Int} {st : State} {rest : List event}
    (hS : Sweep cfg K st rest) (e : event) (he : e ∈ rest) (hK : e.sendTTL ≤ K) :
    (st.currentRow : Int) < e.sendTTL := by
  by_contra hcon
  have hfull := hS.full e.sendTTL (hS.range e he).1 (by omega)
  have hcap := hS.cap e.sendTTL (hS.range e he).1 hK
  have hpos := probesAt_pos rest e he
  omega

theorem Sweep.cur_lt_K {cfg : Config} {K : Int} {st : State} {rest : List event}
    (hS : Sweep cfg K st rest) : (st.currentRow : Int) < K := by
  rcases hS.bound with h | ⟨e, he, _, hK⟩
  · have := hS.curLt; omega
  · have := hS.cur_lt_ttl e he hK; omega

theorem Sweep.tail_dup {cfg : Config} {K : Int} {st : State} {e : event}
    {rest : List event} (hS : Sweep cfg K st (e :: rest)) (hK : K < e.sendTTL) :
    Sweep cfg K st rest := by
  refine ⟨hS.inv, hS.notEof, fun x hx => hS.range x (List.mem_cons_of_mem _ hx), ?_,
    fun x hx => hS.fresh x (List.mem_cons_of_mem _ hx), ?_, hS.full, hS.curLt, hS.stop, ?_⟩
  · exact (List.pairwise_cons.mp hS.distinct).2
  · intro t h1 h2
    have := hS.cap t h1 h2
    rw [probesAt_cons] at this
    push_cast at this
    have hnn : (0 : Int) ≤ ((if t = e.sendTTL then 1 else 0 : Nat) : Int) := by positivity
    omega
  · rcases hS.bound with h | ⟨x, hx, hu, hxK⟩
    · exact Or.inl h
    · rcases List.mem_cons.mp hx with rfl | hx
      · omega
      · exact Or.inr ⟨x, hx, hu, hxK⟩

theorem Outcome.cons_dup {cfg : Config} {K : Int} {st : State} {e : event}
    {rest : List event} {c : Nat} {d : Bool}
    (hO : Outcome cfg K st rest c d) (hK : K < e.sendTTL) :
    Outcome cfg K st (e :: rest) c d := by
  have hleK := hO.leK
  constructor
  · exact hleK
  · intro t h1 h2
    have hne : ¬ t = e.sendTTL := by omega
    rw [probesAt_cons, if_neg hne]
    simpa using hO.full t h1 h2
  · exact hO.leLast
  · intro x hx hu
    rcases List.mem_cons.mp hx with rfl | hx
    · omega
    · exact hO.leUnav x hx hu
  · intro hd
    rcases hO.done hd with h | ⟨x, hx, hu, hxc⟩
    · exact Or.inl h
    · exact Or.inr ⟨x, List.mem_cons_of_mem _ hx, hu, hxc⟩
  · intro hd
    obtain ⟨g1, g2, g3, g4⟩ := hO.going hd
    refine ⟨?_, g2, ?_, g4⟩
    · have hne : ¬ ((c : Int) + 1 = e.sendTTL) := by omega
      rw [probesAt_cons, if_neg hne]
      simpa using g1
    · intro x hx hu
      rcases List.mem_cons.mp hx with rfl | hx
      · omega
      · exact g3 x hx hu

/-- The TTL of an event with a new id lies above the cursor. -/
theorem Sweep.cur_lt_head {cfg : Config} {K : Int} {st : State} {e : event}
    {rest : List event} (hS : Sweep cfg K st (e :: rest)) :
    (st.currentRow : Int) < e.sendTTL := by
  by_cases hK : e.sendTTL ≤ K
  · exact hS.cur_lt_ttl e (List.mem_cons_self _ _) hK
  · have := hS.cur_lt_K; omega

theorem Step.last_le {cfg : Config} {st st1 : State} {e : event}
    (hT : Step cfg st e st1) : st1.lastTTL ≤ st.lastTTL := by
  rw [hT.last]; split <;> omega

theorem Step.last_le_unav {cfg : Config} {st st1 : State} {e : event}
    (hT : Step cfg st e st1) (hu : e.eType = eventType.eventUnavailable) :
    st1.lastTTL ≤ e.sendTTL := by
  rw [hT.last]; split <;> simp_all

theorem Step.last_cases {cfg : Config} {st st1 : State} {e : event}
    (hT : Step cfg st e st1) :
    st1.lastTTL = st.lastTTL ∨
      (e.eType = eventType.eventUnavailable ∧ st1.lastTTL = e.sendTTL) := by
  rw [hT.last]; split
  · rename_i h; exact Or.inr ⟨h.1, rfl⟩
  · exact Or.inl rfl

theorem Step.cur_lt_last {cfg : Config} {K : Int} {st st1 : State} {e : event}
    {rest : List event} (hS : Sweep cfg K st (e :: rest)) (hT : Step cfg st e st1) :
    (st.currentRow : Int) < st1.lastTTL := by
  rcases hT.last_cases with h | ⟨_, h⟩
  · rw [h]; exact hS.curLt
  · rw [h]; exact hS.cur_lt_head

/-- After the step every row up to the new cursor is full. -/
theorem Step.full {cfg : Config} {K : Int} {st st1 : State} {e : event}
    {rest : List event} (hS : Sweep cfg K st (e :: rest)) (hT : Step cfg st e st1)
    (t : Int) (h1 : 1 ≤ t) (h2 : t ≤ st1.currentRow) :
    (rowCount st1.response t : Int) = cfg.NumProbes := by
  by_cases h : t ≤ st.currentRow
  · have hne : ¬ t = e.sendTTL := by have := hS.cur_lt_head; omega
    rw [hT.rows t, if_neg hne]
    simpa using hS.full t h1 h
  · exact hT.newFull t (by omega) h2

/-- An event still to come with TTL `≤ K` lies above the new cursor. -/
theorem Step.cur_lt_rest {cfg : Config} {K : Int} {st st1 : State} {e : event}
    {rest : List event} (hS : Sweep cfg K st (e :: rest)) (hT : Step cfg st e st1)
    (x : event) (hx : x ∈ rest) (hK : x.sendTTL ≤ K) :
    (st1.currentRow : Int) < x.sendTTL := by
  by_contra hcon
  have hx1 := (hS.range x (List.mem_cons_of_mem _ hx)).1
  have hfull := hT.full hS x.sendTTL hx1 (by omega)
  have hcap := hS.cap x.sendTTL hx1 hK
  have hpos := probesAt_pos rest x hx
  rw [probesAt_cons] at hcap
  rw [hT.rows] at hfull
  push_cast at hcap hfull
  omega

theorem Step.cur_le_K {cfg : Config} {K : Int} {st st1 : State} {e : event}
    {rest : List event} (hS : Sweep cfg K st (e :: rest)) (hT : Step cfg st e st1) :
    (st1.currentRow : Int) ≤ K := by
  have hle := hT.curLe (hT.cur_lt_last hS)
  rcases hS.bound with h | ⟨x, hx, hu, hxK⟩
  · have := hT.last_le; omega
  · rcases List.mem_cons.mp hx with rfl | hx
    · have := hT.last_le_unav hu; omega
    · have := hT.cur_lt_rest hS x hx hxK; omega

theorem Sweep.tail_fresh {cfg : Config} {K : Int} {st st1 : State} {e : event}
    {rest : List event} (hS : Sweep cfg K st (e :: rest)) (hT : Step cfg st e st1)
    (hI : Inv cfg st1) (hne : st1.eof = false) : Sweep cfg K st1 rest := by
  have hle := hT.curLe (hT.cur_lt_last hS)
  have hneq : ¬ ((st1.currentRow : Int) = st1.lastTTL) := by
    have := hT.eof; rw [hne] at this; simpa using this.symm
  have hlt : (st1.currentRow : Int) < st1.lastTTL := by omega
  have hpw := List.pairwise_cons.mp hS.distinct
  refine ⟨hI, hne, fun x hx => hS.range x (List.mem_cons_of_mem _ hx), hpw.2, ?_, ?_,
    hT.full hS, hlt, hT.stop hlt, ?_⟩
  · intro x hx hxK
    rw [hT.seen]
    intro hmem
    rcases List.mem_cons.mp hmem with h | h
    · exact hpw.1 x hx (Or.inr hxK) h.symm
    · exact hS.fresh x (List.mem_cons_of_mem _ hx) hxK h
  · intro t h1 h2
    have := hS.cap t h1 h2
    rw [probesAt_cons] at this
    rw [hT.rows]
    push_cast at this ⊢
    omega
  · rcases hS.bound with h | ⟨x, hx, hu, hxK⟩
    · have := hT.last_le; exact Or.inl (by omega)
    · rcases List.mem_cons.mp hx with rfl | hx
      · have := hT.last_le_unav hu; exact Or.inl (by omega)
      · exact Or.inr ⟨x, hx, hu, hxK⟩

theorem Outcome.cons_fresh {cfg : Config} {K : Int} {st st1 : State} {e : event}
    {rest : List event} {c : Nat} {d : Bool}
    (hT : Step cfg st e st1) (hO : Outcome cfg K st1 rest c d) :
    Outcome cfg K st (e :: rest) c d := by
  have htot : ∀ t : Int, (rowCount st.response t : Int) + probesAt (e :: rest) t
      = (rowCount st1.response t : Int) + probesAt rest t := by
    intro t
    rw [probesAt_cons, hT.rows]
    push_cast
    omega
  constructor
  · exact hO.leK
  · intro t h1 h2
    rw [htot]; exact hO.full t h1 h2
  · have := hT.last_le; have := hO.leLast; omega
  · intro x hx hu
    rcases List.mem_cons.mp hx with rfl | hx
    · have := hT.last_le_unav hu; have := hO.leLast; omega
    · exact hO.leUnav x hx hu
  · intro hd
    rcases hO.done hd with h | ⟨x, hx, hu, hxc⟩
    · rcases hT.last_cases with h' | ⟨hu, h'⟩
      · exact Or.inl (by omega)
      · exact Or.inr ⟨e, List.mem_cons_self _ _, hu, by omega⟩
    · exact Or.inr ⟨x, List.mem_cons_of_mem _ hx, hu, hxc⟩
  · intro hd
    obtain ⟨g1, g2, g3, g4⟩ := hO.going hd
    refine ⟨by rw [htot]; exact g1, by have := hT.last_le; omega, ?_, g4⟩
    intro x hx hu
    rcases List.mem_cons.mp hx with rfl | hx
    · have := hT.last_le_unav hu; omega
    · exact g3 x hx hu

theorem Outcome.of_eof {cfg : Config} {K : Int} {st st1 : State} {e : event}
    {rest : List event} (hS : Sweep cfg K st (e :: rest)) (hT : Step cfg st e st1)
    (heof : st1.eof = true) : Outcome cfg K st (e :: rest) st1.currentRow true := by
  have heq : (st1.currentRow : Int) = st1.lastTTL := by
    have := hT.eof; rw [heof] at this; simpa using this.symm
  constructor
  · exact hT.cur_le_K hS
  · intro t h1 h2
    have hfull := hT.full hS t h1 h2
    have hcap := hS.cap t h1 (by have := hT.cur_le_K hS; omega)
    rw [hT.rows] at hfull
    rw [probesAt_cons] at hcap ⊢
    push_cast at hfull hcap ⊢
    omega
  · have := hT.last_le; omega
  · intro x hx hu
    rcases List.mem_cons.mp hx with rfl | hx
    · have := hT.last_le_unav hu; omega
    · by_cases hxK : x.sendTTL ≤ K
      · have := hT.cur_lt_rest hS x hx hxK; omega
      · have := hT.cur_le_K hS; omega
  · intro _
    rcases hT.last_cases with h' | ⟨hu, h'⟩
    · exact Or.inl (by omega)
    · exact Or.inr ⟨e, List.mem_cons_self _ _, hu, by omega⟩
  · intro h; exact absurd h (by simp)

/-- From a state of the sweep the loop returns, and its cursor and end flag are the ones
`Outcome` describes. -/
theorem sweep_outcome (lib : Stdlib) (cfg : Config) (K : Int) (rest : List event) :
    ∀ st, Sweep cfg K st rest →
      ∃ st', collectFrom lib cfg st rest = some st' ∧ Inv cfg st' ∧
        Outcome cfg K st rest st'.currentRow st'.eof := by
  induction rest with
  | nil =>
    intro st hS
    refine ⟨st, rfl, hS.inv, ?_⟩
    have hcK := hS.cur_lt_K
    have hlt := hS.curLt
    constructor
    · omega
    · intro t h1 h2
      simpa [probesAt] using hS.full t h1 h2
    · omega
    · intro x hx; exact absurd hx (by simp)
    · intro h; rw [hS.notEof] at h; exact absurd h (by simp)
    · intro _
      refine ⟨?_, hlt, fun x hx => absurd hx (by simp), hcK⟩
      simpa [probesAt] using hS.stop
  | cons e rest ih =>
    intro st hS
    have hb : ¬ st.eof = true := by rw [hS.notEof]; simp
    obtain ⟨h1, h2⟩ := hS.range e (List.mem_cons_self _ _)
    by_cases hd : e.id ∈ st.processedEvents
    · have hK : K < e.sendTTL := by
        by_contra hcon
        exact hS.fresh e (List.mem_cons_self _ _) (by omega) hd
      have hstep := processEvent_dup lib cfg st e h1
        (by rw [hS.inv.len]; exact h2) hd
      obtain ⟨st', hrun, hI', hO⟩ := ih st (hS.tail_dup hK)
      exact ⟨st', by simp [collectFrom, hb, hstep, hrun], hI', hO.cons_dup hK⟩
    · obtain ⟨st1, hstep, hI1, hT⟩ := step_fresh lib cfg st e hS.inv h1 h2 hd
      by_cases heof : st1.eof = true
      · refine ⟨st1, ?_, hI1, ?_⟩
        · simp [collectFrom, hb, hstep, collectFrom_eof lib cfg st1 rest heof]
        · rw [heof]; exact Outcome.of_eof hS hT heof
      · have hne : st1.eof = false := by simpa using heof
        obtain ⟨st', hrun, hI', hO⟩ := ih st1 (hS.tail_fresh hT hI1 hne)
        exact ⟨st', by simp [collectFrom, hb, hstep, hrun], hI', hO.cons_fresh hT⟩

/-! ## The outcome of a whole run -/

theorem Outcome.cur_le {cfg : Config} {K K' : Int} {st : State} {rest : List event}
    {c c' : Nat} {d d' : Bool}
    (h : Outcome cfg K st rest c d) (h' : Outcome cfg K' st rest c' d') : c' ≤ c := by
  by_contra hcon
  have hlt : c < c' := by omega
  have hfull := h'.full ((c : Int) + 1) (by omega) (by omega)
  cases d with
  | false => exact (h.going rfl).1 hfull
  | true =>
    rcases h.done rfl with heq | ⟨x, hx, hu, hxc⟩
    · have := h'.leLast; omega
    · have := h'.leUnav x hx hu; omega

/-- The conditions of `Outcome` determine the cursor and the end flag. -/
theorem Outcome.unique {cfg : Config} {K K' : Int} {st : State} {rest : List event}
    {c c' : Nat} {d d' : Bool}
    (h : Outcome cfg K st rest c d) (h' : Outcome cfg K' st rest c' d') :
    c = c' ∧ d = d' := by
  have hc : c = c' := Nat.le_antisymm (h'.cur_le h) (h.cur_le h')
  subst hc
  refine ⟨rfl, ?_⟩
  have key : ∀ {K₁ K₂ : Int}, Outcome cfg K₁ st rest c true →
      Outcome cfg K₂ st rest c false → False := by
    intro K₁ K₂ ht hf
    obtain ⟨_, g2, g3, _⟩ := hf.going rfl
    rcases ht.done rfl with heq | ⟨x, hx, hu, hxc⟩
    · omega
    · have := g3 x hx hu; omega
  cases d <;> cases d'
  · rfl
  · exact (key h' h).elim
  · exact (key h h').elim
  · rfl

theorem rowCount_new (n : Nat) (t : Int) :
    rowCount ((List.range n).map
      (fun (i : Nat) => ({ TTL := (i : Int) + 1, PacketsForIP := [] } : ResponseForTTL))) t
      = 0 := by
  unfold rowCount
  split
  · rw [List.getElem?_map]
    cases (List.range n)[(t - 1).toNat]? <;> simp [probesForTTL]
  · rfl

theorem newAssembleResponse_eq (m : Int) (h : 0 ≤ m) :
    newAssembleResponse m = some ((List.range m.toNat).map
      (fun (i : Nat) => ({ TTL := (i : Int) + 1, PacketsForIP := [] } : ResponseForTTL))) := by
  have hn : ¬ m < 0 := by omega
  simp only [newAssembleResponse, hn, if_false]

theorem collectResponse_eq (lib : Stdlib) (cfg : Config) (evs : List event)
    (h : 0 ≤ cfg.MaxTTL) :
    collectResponse lib cfg evs
      = collectFrom lib cfg (initState cfg (freshRows cfg)) evs := by
  simp only [collectResponse, newAssembleResponse_eq _ h, freshRows]

theorem Inv_fresh (cfg : Config) (h : 0 ≤ cfg.MaxTTL) :
    Inv cfg (initState cfg (freshRows cfg)) := by
  obtain ⟨data, hd, hI⟩ := Inv_init cfg h
  rw [newAssembleResponse_eq _ h] at hd
  cases hd
  exact hI

theorem Sweep_init (cfg : Config) (K : Int) (evs : List event)
    (hM : 1 ≤ cfg.MaxTTL) (hN : cfg.NumProbes ≠ 0)
    (hrange : ∀ e ∈ evs, 1 ≤ e.sendTTL ∧ e.sendTTL ≤ cfg.MaxTTL)
    (hids : DistinctUpTo K evs)
    (hcap : ∀ t : Int, 1 ≤ t → t ≤ K → (probesAt evs t : Int) ≤ cfg.NumProbes)
    (hbound : cfg.MaxTTL ≤ K ∨
      ∃ e ∈ evs, e.eType = eventType.eventUnavailable ∧ e.sendTTL ≤ K) :
    Sweep cfg K (initState cfg (freshRows cfg)) evs := by
  have hrc : ∀ t, rowCount (initState cfg (freshRows cfg)).response t = 0 :=
    fun t => rowCount_new _ t
  refine ⟨Inv_fresh cfg (by omega), rfl, hrange, hids, ?_, ?_, ?_, ?_, ?_, hbound⟩
  · intro e _ _; simp [initState]
  · intro t h1 h2; rw [hrc]; simpa using hcap t h1 h2
  · intro t h1 h2; simp only [initState] at h2; omega
  · simp only [initState]; omega
  · rw [hrc]; simpa using hN.symm

/-- The run of `collectResponse` on events whose ids are distinct and which are at most
`NumProbes` per TTL, up to TTL `K`: it returns, and `Outcome` gives its cursor and flag. -/
theorem collect_sweep (lib : Stdlib) (cfg : Config) (K : Int) (evs : List event)
    (hM : 1 ≤ cfg.MaxTTL) (hN : cfg.NumProbes ≠ 0)
    (hrange : ∀ e ∈ evs, 1 ≤ e.sendTTL ∧ e.sendTTL ≤ cfg.MaxTTL)
    (hids : DistinctUpTo K evs)
    (hcap : ∀ t : Int, 1 ≤ t → t ≤ K → (probesAt evs t : Int) ≤ cfg.NumProbes)
    (hbound : cfg.MaxTTL ≤ K ∨
      ∃ e ∈ evs, e.eType = eventType.eventUnavailable ∧ e.sendTTL ≤ K) :
    ∃ st, collectResponse lib cfg evs = some st ∧ Inv cfg st ∧
      Outcome cfg K (initState cfg (freshRows cfg)) evs st.currentRow st.eof := by
  obtain ⟨st, hrun, hI, hO⟩ :=
    sweep_outcome lib cfg K evs _ (Sweep_init cfg K evs hM hN hrange hids hcap hbound)
  exact ⟨st, by rw [collectResponse_eq _ _ _ (by omega)]; exact hrun, hI, hO⟩

theorem Outcome.init_going {cfg : Config} {K : Int} {evs : List event} {c : Nat} {d : Bool}
    (hO : Outcome cfg K (initState cfg (freshRows cfg)) evs c d) (hd : d = false) :
    (probesAt evs ((c : Int) + 1) : Int) ≠ cfg.NumProbes ∧ (c : Int) < K := by
  obtain ⟨g1, _, _, g4⟩ := hO.going hd
  have hrc : rowCount (initState cfg (freshRows cfg)).response ((c : Int) + 1) = 0 :=
    rowCount_new _ _
  rw [hrc] at g1
  exact ⟨by simpa using g1, g4⟩

theorem distinctUpTo_of_nodup (K : Int) (evs : List event)
    (h : (evs.map (fun e => e.id)).Nodup) : DistinctUpTo K evs := by
  unfold DistinctUpTo
  have hp : evs.Pairwise (fun a b => a.id ≠ b.id) := List.pairwise_map.mp h
  refine List.Pairwise.imp ?_ hp
  intro a b hne _
  exact hne

/-! ## Rows that only hold time-outs -/

theorem appendRow_onlyNone (rows : List ResponseForTTL) (i : Nat)
    (h : ∀ r ∈ rows, OnlyNone r) : ∀ r ∈ appendRow rows i "None" "*", OnlyNone r := by
  induction rows generalizing i with
  | nil => intro r hr; simp [appendRow] at hr
  | cons x rows ih =>
    have hx := h x (List.mem_cons_self _ _)
    have hrows : ∀ r ∈ rows, OnlyNone r := fun r hr => h r (List.mem_cons_of_mem _ hr)
    cases i with
    | zero =>
      intro r hr
      simp only [appendRow, List.mem_cons] at hr
      rcases hr with rfl | hr
      · rcases hx with h0 | ⟨n, hn⟩
        · exact Or.inr ⟨0, by simp [h0, appendBucket]⟩
        · refine Or.inr ⟨n + 1, ?_⟩
          simp only [hn, appendBucket, if_true]
          rw [List.replicate_succ' (n + 1)]
      · exact hrows r hr
    | succ i =>
      intro r hr
      simp only [appendRow, List.mem_cons] at hr
      rcases hr with rfl | hr
      · exact hx
      · exact ih i hrows r hr

theorem advance_mem (N L : Int) :
    ∀ (data : List ResponseForTTL) (c : Nat) (sent : List ResponseForTTL)
      (c' : Nat) (sent' : List ResponseForTTL),
      advance N L data c sent = some (c', sent') → ∀ r ∈ sent', r ∈ sent ∨ r ∈ data := by
  intro data
  induction data with
  | nil =>
    intro c sent c' sent' h r hr
    unfold advance at h
    split at h
    · exact absurd h (by simp)
    · simp only [Option.some.injEq, Prod.mk.injEq] at h
      rw [← h.2] at hr; exact Or.inl hr
  | cons x data ih =>
    intro c sent c' sent' h r hr
    unfold advance at h
    split at h
    · split at h
      · rcases ih _ _ _ _ h r hr with h1 | h1
        · rcases List.mem_append.mp h1 with h2 | h2
          · exact Or.inl h2
          · simp only [List.mem_singleton] at h2
            exact Or.inr (h2 ▸ List.mem_cons_self _ _)
        · exact Or.inr (List.mem_cons_of_mem _ h1)
      · simp only [Option.some.injEq, Prod.mk.injEq] at h
        rw [← h.2] at hr; exact Or.inl hr
    · simp only [Option.some.injEq, Prod.mk.injEq] at h
      rw [← h.2] at hr; exact Or.inl hr

theorem processEvent_onlyNone (lib : Stdlib) (cfg : Config) (st st' : State) (e : event)
    (hrows : ∀ r ∈ st.response, OnlyNone r) (hsent : ∀ r ∈ st.sent, OnlyNone r)
    (he : e.eType = eventType.eventNoResponse)
    (h : processEvent lib cfg st e = some st') :
    (∀ r ∈ st'.response, OnlyNone r) ∧ (∀ r ∈ st'.sent, OnlyNone r) := by
  have hrec : ∀ r ∈ (record lib st e).1, OnlyNone r := by
    have : (record lib st e).1 = appendRow st.response (e.sendTTL - 1).toNat "None" "*" := by
      simp [record, he]
    rw [this]
    exact appendRow_onlyNone _ _ hrows
  unfold processEvent at h
  split at h
  · exact absurd h (by simp)
  · split at h
    · cases h; exact ⟨hrows, hsent⟩
    · simp only at h
      split at h
      · exact absurd h (by simp)
      · rename_i cur sent hadv
        cases h
        refine ⟨hrec, ?_⟩
        intro r hr
        rcases advance_mem _ _ _ _ _ _ _ hadv r hr with h1 | h1
        · exact hsent r h1
        · exact hrec r (List.mem_of_mem_drop h1)

theorem collectFrom_onlyNone (lib : Stdlib) (cfg : Config) (evs : List event) :
    ∀ st st', (∀ r ∈ st.response, OnlyNone r) → (∀ r ∈ st.sent, OnlyNone r) →
      (∀ e ∈ evs, e.eType = eventType.eventNoResponse) →
      collectFrom lib cfg st evs = some st' →
      (∀ r ∈ st'.response, OnlyNone r) ∧ (∀ r ∈ st'.sent, OnlyNone r) := by
  induction evs with
  | nil =>
    intro st st' h1 h2 _ h
    simp only [collectFrom, Option.some.injEq] at h
    subst h; exact ⟨h1, h2⟩
  | cons e es ih =>
    intro st st' h1 h2 he h
    by_cases hb : st.eof = true
    · rw [collectFrom_eof _ _ _ _ hb] at h
      cases h; exact ⟨h1, h2⟩
    · cases hs : processEvent lib cfg st e with
      | none => simp [collectFrom, hb, hs] at h
      | some st1 =>
        have h' : collectFrom lib cfg st1 es = some st' := by
          simpa [collectFrom, hb, hs] using h
        obtain ⟨g1, g2⟩ := processEvent_onlyNone lib cfg st st1 e h1 h2
          (he e (List.mem_cons_self _ _)) hs
        exact ih st1 st' g1 g2 (fun x hx => he x (List.mem_cons_of_mem _ hx)) h'

theorem onlyNone_full (r : ResponseForTTL) (N : Int) (h : OnlyNone r) (hN : 1 ≤ N)
    (hfull : (probesForTTL r : Int) = N) :
    r.PacketsForIP = [("None", List.replicate N.toNat "*")] := by
  rcases h with h0 | ⟨n, hn⟩
  · simp [probesForTTL, h0] at hfull; omega
  · have : N.toNat = n + 1 := by
      simp [probesForTTL, hn] at hfull; omega
    rw [hn, this]

theorem rows_eq_of_buckets (l : List ResponseForTTL) (c : Nat) (B : Buckets)
    (httl : l.map (fun r => r.TTL) = (List.range c).map (fun (i : Nat) => (i : Int) + 1))
    (hB : ∀ r ∈ l, r.PacketsForIP = B) :
    l = (List.range c).map
      (fun (i : Nat) => ({ TTL := (i : Int) + 1, PacketsForIP := B } : ResponseForTTL)) := by
  have h1 : l = (l.map (fun r => r.TTL)).map
      (fun t => ({ TTL := t, PacketsForIP := B } : ResponseForTTL)) := by
    rw [List.map_map]
    conv_lhs => rw [← List.map_id l]
    apply List.map_congr_left
    intro r hr
    have := hB r hr
    cases r
    simp_all
  rw [h1, httl, List.map_map]
  rfl

/-! ## Rows below the cursor stay as they were sent -/

theorem mem_idsAt (evs : List event) (t i : Int) :
    i ∈ idsAt evs t ↔ ∃ e ∈ evs, e.sendTTL = t ∧ e.id = i := by
  simp [idsAt, and_assoc]

theorem mem_pendingIds (evs : List event) (seen : List Int) (t i : Int) :
    i ∈ pendingIds evs seen t ↔ (∃ e ∈ evs, e.sendTTL = t ∧ e.id = i) ∧ i ∉ seen := by
  simp [pendingIds, mem_idsAt]

theorem pendingIds_mono (evs evs' : List event) (seen seen' : List Int) (t : Int)
    (h1 : ∀ e ∈ evs', e ∈ evs) (h2 : ∀ i ∈ seen, i ∈ seen') :
    pendingIds evs' seen' t ⊆ pendingIds evs seen t := by
  intro i hi
  rw [mem_pendingIds] at hi ⊢
  obtain ⟨⟨e, he, h⟩, hs⟩ := hi
  exact ⟨⟨e, h1 e he, h⟩, fun hc => hs (h2 i hc)⟩

theorem pendingIds_card_mono (evs evs' : List event) (seen seen' : List Int) (t : Int)
    (h1 : ∀ e ∈ evs', e ∈ evs) (h2 : ∀ i ∈ seen, i ∈ seen') :
    (pendingIds evs' seen' t).card ≤ (pendingIds evs seen t).card :=
  Finset.card_le_card (pendingIds_mono evs evs' seen seen' t h1 h2)

theorem pendingIds_card_step (e : event) (rest : List event) (seen : List Int)
    (hd : e.id ∉ seen) :
    (pendingIds rest (e.id :: seen) e.sendTTL).card + 1
      ≤ (pendingIds (e :: rest) seen e.sendTTL).card := by
  have hmem : e.id ∈ pendingIds (e :: rest) seen e.sendTTL := by
    rw [mem_pendingIds]
    exact ⟨⟨e, List.mem_cons_self _ _, rfl, rfl⟩, hd⟩
  have hsub : pendingIds rest (e.id :: seen) e.sendTTL
      ⊆ (pendingIds (e :: rest) seen e.sendTTL).erase e.id := by
    intro i hi
    rw [mem_pendingIds] at hi
    obtain ⟨⟨x, hx, h⟩, hs⟩ := hi
    rw [Finset.mem_erase, mem_pendingIds]
    refine ⟨fun hc => hs (by rw [hc]; exact List.mem_cons_self _ _),
      ⟨x, List.mem_cons_of_mem _ hx, h⟩, fun hc => hs (List.mem_cons_of_mem _ hc)⟩
  have h1 := Finset.card_le_card hsub
  rw [Finset.card_erase_of_mem hmem] at h1
  have hpos : 0 < (pendingIds (e :: rest) seen e.sendTTL).card :=
    Finset.card_pos.mpr ⟨_, hmem⟩
  omega

theorem Quota.weaken {cfg : Config} {st : State} {a b : List event}
    (hQ : Quota cfg st (a ++ b)) : Quota cfg st b := by
  refine ⟨hQ.inv, fun e he => hQ.range e (List.mem_append_right _ he), ?_, hQ.full, hQ.same⟩
  intro t h1
  have := hQ.cap t h1
  have hm := pendingIds_card_mono (a ++ b) b st.processedEvents st.processedEvents t
    (fun e he => List.mem_append_right _ he) (fun i hi => hi)
  omega

theorem Quota.head_above {cfg : Config} {st : State} {e : event} {rest : List event}
    (hQ : Quota cfg st (e :: rest)) (hd : e.id ∉ st.processedEvents) :
    (st.currentRow : Int) < e.sendTTL := by
  by_contra hcon
  have h1 := (hQ.range e (List.mem_cons_self _ _)).1
  have hfull := hQ.full e.sendTTL h1 (by omega)
  have hcap := hQ.cap e.sendTTL h1
  have := pendingIds_card_step e rest st.processedEvents hd
  omega

theorem Quota.after_fresh {cfg : Config} {st st1 : State} {e : event} {rest : List event}
    (hQ : Quota cfg st (e :: rest)) (hd : e.id ∉ st.processedEvents)
    (hT : Step cfg st e st1) (hI : Inv cfg st1) : Quota cfg st1 rest := by
  have hlt := hQ.head_above hd
  refine ⟨hI, fun x hx => hQ.range x (List.mem_cons_of_mem _ hx), ?_, ?_,
    hT.sent hlt hQ.same⟩
  · intro t h1
    have hcap := hQ.cap t h1
    rw [hT.rows, hT.seen]
    by_cases htu : t = e.sendTTL
    · subst htu
      have := pendingIds_card_step e rest st.processedEvents hd
      simp only [if_true]
      push_cast
      omega
    · have := pendingIds_card_mono (e :: rest) rest st.processedEvents
        (e.id :: st.processedEvents) t (fun x hx => List.mem_cons_of_mem _ hx)
        (fun i hi => List.mem_cons_of_mem _ hi)
      simp only [htu, if_false]
      push_cast
      omega
  · intro t h1 h2
    by_cases h : t ≤ st.currentRow
    · have hne : ¬ t = e.sendTTL := by omega
      rw [hT.rows t, if_neg hne]
      simpa using hQ.full t h1 h
    · exact hT.newFull t (by omega) h2

/-- Under the quota the loop returns, the quota still holds for what follows, and the
rows below the cursor it started from are untouched. -/
theorem quota_run (lib : Stdlib) (cfg : Config) (p : List event) :
    ∀ (st : State) (q : List event), Quota cfg st (p ++ q) →
      ∃ sp, collectFrom lib cfg st p = some sp ∧ Quota cfg sp q ∧
        st.currentRow ≤ sp.currentRow ∧
        sp.response.take st.currentRow = st.response.take st.currentRow := by
  induction p with
  | nil => intro st q hQ; exact ⟨st, rfl, hQ, le_refl _, rfl⟩
  | cons e p ih =>
    intro st q hQ
    by_cases hb : st.eof = true
    · exact ⟨st, collectFrom_eof _ _ _ _ hb, hQ.weaken, le_refl _, rfl⟩
    · have hQ' : Quota cfg st (e :: (p ++ q)) := hQ
      obtain ⟨h1, h2⟩ := hQ'.range e (List.mem_cons_self _ _)
      by_cases hd : e.id ∈ st.processedEvents
      · have hstep := processEvent_dup lib cfg st e h1
          (by rw [hQ.inv.len]; exact h2) hd
        have hQt : Quota cfg st (p ++ q) := Quota.weaken (a := [e]) hQ'
        obtain ⟨sp, hrun, hQp, hc, hr⟩ := ih st q hQt
        exact ⟨sp, by simp [collectFrom, hb, hstep, hrun], hQp, hc, hr⟩
      · obtain ⟨st1, hstep, hI1, hT⟩ := step_fresh lib cfg st e hQ.inv h1 h2 hd
        obtain ⟨sp, hrun, hQp, hc, hr⟩ := ih st1 q (hQ'.after_fresh hd hT hI1)
        refine ⟨sp, by simp [collectFrom, hb, hstep, hrun], hQp, le_trans hT.mono hc, ?_⟩
        have hfro := hT.frozen (hQ'.head_above hd)
        have := congrArg (List.take st.currentRow) hr
        rw [List.take_take, List.take_take, Nat.min_eq_left hT.mono] at this
        rw [this, hfro]

theorem Quota_init (cfg : Config) (evs : List event) (hT : 0 ≤ cfg.MaxTTL)
    (hrange : ∀ e ∈ evs, 1 ≤ e.sendTTL ∧ e.sendTTL ≤ cfg.MaxTTL)
    (hquota : ∀ t : Int, ((idsAt evs t).card : Int) ≤ cfg.NumProbes) :
    Quota cfg (initState cfg (freshRows cfg)) evs := by
  refine ⟨Inv_fresh cfg hT, hrange, ?_, ?_, ?_⟩
  · intro t _
    have hrc : rowCount (initState cfg (freshRows cfg)).response t = 0 := rowCount_new _ t
    have hle : (pendingIds evs (initState cfg (freshRows cfg)).processedEvents t).card
        ≤ (idsAt evs t).card := Finset.card_le_card (Finset.filter_subset _ _)
    have := hquota t
    rw [hrc]
    push_cast
    omega
  · intro t h1 h2; simp only [initState] at h2; omega
  · simp [initState]

/-! ## Probe identities and the ICMP filter -/

theorem probesOfHop_mem (ttl : Int) (n : Nat) :
    ∀ (dstPort : Int) (p : Int × Int), p ∈ probesOfHop ttl n dstPort →
      p.1 = ttl ∧ dstPort ≤ p.2 ∧ p.2 < dstPort + n := by
  induction n with
  | zero => intro dstPort p hp; simp [probesOfHop] at hp
  | succ n ih =>
    intro dstPort p hp
    simp only [probesOfHop, List.mem_cons] at hp
    rcases hp with rfl | hp
    · refine ⟨rfl, le_refl _, ?_⟩
      push_cast; omega
    · obtain ⟨h1, h2, h3⟩ := ih (dstPort + 1) p hp
      refine ⟨h1, by omega, ?_⟩
      push_cast; omega

theorem probesOfHops_mem (numProbes : Nat) (hops : Nat) :
    ∀ (ttl dstPort : Int) (p : Int × Int), p ∈ probesOfHops numProbes hops ttl dstPort →
      ttl ≤ p.1 ∧ p.1 < ttl + hops ∧ dstPort ≤ p.2 ∧
        p.2 < dstPort + (hops : Int) * numProbes := by
  induction hops with
  | zero => intro ttl dstPort p hp; simp [probesOfHops] at hp
  | succ hops ih =>
    intro ttl dstPort p hp
    simp only [probesOfHops, List.mem_append] at hp
    have hnn : (0 : Int) ≤ (hops : Int) * numProbes := by positivity
    rcases hp with hp | hp
    · obtain ⟨h1, h2, h3⟩ := probesOfHop_mem ttl numProbes dstPort p hp
      refine ⟨by omega, by push_cast; omega, h2, ?_⟩
      push_cast
      nlinarith
    · obtain ⟨h1, h2, h3, h4⟩ := ih (ttl + 1) (dstPort + numProbes) p hp
      have hnp : (0 : Int) ≤ (numProbes : Int) := by positivity
      refine ⟨by omega, by push_cast; omega, by omega, ?_⟩
      push_cast
      nlinarith

theorem take_four_drop (l : List Nat) (k : Nat) (h : k + 4 ≤ l.length) :
    (l.drop k).take 4 = [l.getD k 0, l.getD (k + 1) 0, l.getD (k + 2) 0, l.getD (k + 3) 0] := by
  induction k generalizing l with
  | zero =>
    match l, h with
    | a :: b :: c :: d :: rest, _ => simp
  | succ k ih =>
    match l, h with
    | x :: l', h =>
      have := ih l' (by simp at h; omega)
      simpa using this

theorem take_two_drop (l : List Nat) (k : Nat) (h : k + 2 ≤ l.length) :
    (l.drop k).take 2 = [l.getD k 0, l.getD (k + 1) 0] := by
  induction k generalizing l with
  | zero =>
    match l, h with
    | a :: b :: rest, _ => simp
  | succ k ih =>
    match l, h with
    | x :: l', h =>
      have := ih l' (by simp at h; omega)
      simpa using this

theorem bigEndianUint16_pair (x y : Nat) (hx : x < 256) (hy : y < 256) :
    bigEndianUint16 [x, y] = 256 * x + y := by
  have h1 : [x, y].getD 1 0 = y := rfl
  have h0 : [x, y].getD 0 0 = x := rfl
  unfold bigEndianUint16
  rw [h1, h0, Nat.shiftLeft_eq, Nat.or_comm, Nat.mul_comm x (2 ^ 8),
    ← Nat.mul_add_lt_is_or (by norm_num; exact hy) x]
  apply Nat.mod_eq_of_lt
  norm_num
  omega

theorem getD_lt_of_all (l : List Nat) (h : ∀ x ∈ l, x < 256) (i : Nat) :
    l.getD i 0 < 256 := by
  by_cases hi : i < l.length
  · rw [List.getD_eq_getElem _ _ hi]
    exact h _ (List.getElem_mem _)
  · rw [List.getD_eq_default _ _ (by omega)]
    norm_num

theorem collectResponse_after_eof (lib : Stdlib) (cfg : Config) (evs more : List event)
    (st : State) (h : collectResponse lib cfg evs = some st) (heof : st.eof = true) :
    collectResponse lib cfg (evs ++ more) = some st := by
  unfold collectResponse at h ⊢
  cases hd : newAssembleResponse cfg.MaxTTL with
  | none => rw [hd] at h; exact absurd h (by simp)
  | some data =>
    rw [hd] at h
    simp only at h ⊢
    rw [collectFrom_append, h]
    exact collectFrom_eof _ _ _ _ heof

theorem processEvent_other_rows (lib : Stdlib) (cfg : Config) (st st' : State) (e : event)
    (h : processEvent lib cfg st e = some st') (j : Nat) (hj : j ≠ (e.sendTTL - 1).toNat) :
    st'.response[j]? = st.response[j]? := by
  unfold processEvent at h
  split at h
  · exact absurd h (by simp)
  · split at h
    · cases h; rfl
    · simp only at h
      split at h
      · exact absurd h (by simp)
      · cases h
        obtain ⟨key, val, hr, _⟩ := record_eq lib st e
        simp only
        rw [hr, appendRow_getElem?_ne _ _ _ _ _ hj]

/-! ## Only the first event of an id is processed -/

theorem processEvent_cases (lib : Stdlib) (cfg : Config) (st st' : State) (e : event)
    (h : processEvent lib cfg st e = some st') :
    1 ≤ e.sendTTL ∧ e.sendTTL ≤ st.response.length ∧
      ((e.id ∈ st.processedEvents ∧ st' = st) ∨
        (e.id ∉ st.processedEvents ∧ st'.response = (record lib st e).1 ∧
          st'.processedEvents = e.id :: st.processedEvents ∧
          st'.lastTTL = (record lib st e).2)) := by
  unfold processEvent at h
  split at h
  · exact absurd h (by simp)
  · rename_i hr
    refine ⟨by omega, by omega, ?_⟩
    split at h
    · rename_i hd
      cases h
      exact Or.inl ⟨hd, rfl⟩
    · rename_i hd
      simp only at h
      split at h
      · exact absurd h (by simp)
      · cases h
        exact Or.inr ⟨hd, rfl, rfl, rfl⟩

theorem collectFrom_firstDeliveries (lib : Stdlib) (cfg : Config) (evs : List event) :
    ∀ st, (∀ e ∈ evs, 1 ≤ e.sendTTL ∧ e.sendTTL ≤ st.response.length) →
      collectFrom lib cfg st evs
        = collectFrom lib cfg st (firstDeliveries st.processedEvents evs) := by
  induction evs with
  | nil => intro st _; rfl
  | cons e es ih =>
    intro st hr
    have hes : ∀ x ∈ es, 1 ≤ x.sendTTL ∧ x.sendTTL ≤ st.response.length :=
      fun x hx => hr x (List.mem_cons_of_mem _ hx)
    obtain ⟨h1, h2⟩ := hr e (List.mem_cons_self _ _)
    by_cases hb : st.eof = true
    · rw [collectFrom_eof _ _ _ _ hb, collectFrom_eof _ _ _ _ hb]
    · by_cases hd : e.id ∈ st.processedEvents
      · have hstep := processEvent_dup lib cfg st e h1 h2 hd
        have hf : firstDeliveries st.processedEvents (e :: es)
            = firstDeliveries st.processedEvents es := by
          simp only [firstDeliveries, hd, if_true]
        rw [hf, ← ih st hes]
        simp [collectFrom, hb, hstep]
      · have hf : firstDeliveries st.processedEvents (e :: es)
            = e :: firstDeliveries (e.id :: st.processedEvents) es := by
          simp only [firstDeliveries, hd, if_false]
        rw [hf]
        cases hs : processEvent lib cfg st e with
        | none => simp [collectFrom, hb, hs]
        | some st1 =>
          obtain ⟨_, _, hc⟩ := processEvent_cases lib cfg st st1 e hs
          rcases hc with ⟨hd', _⟩ | ⟨_, hresp, hseen, _⟩
          · exact absurd hd' hd
          · have hlen : st1.response.length = st.response.length := by
              rw [hresp, record_length]
            have := ih st1 (by rw [hlen]; exact hes)
            rw [hseen] at this
            simp [collectFrom, hb, hs, this]

theorem firstDeliveries_mem (evs : List event) :
    ∀ (seen : List Int) (e : event), e ∈ firstDeliveries seen evs → e ∈ evs ∧ e.id ∉ seen := by
  induction evs with
  | nil => intro seen e h; simp [firstDeliveries] at h
  | cons x xs ih =>
    intro seen e h
    by_cases hd : x.id ∈ seen
    · simp only [firstDeliveries, hd, if_true] at h
      obtain ⟨h1, h2⟩ := ih seen e h
      exact ⟨List.mem_cons_of_mem _ h1, h2⟩
    · simp only [firstDeliveries, hd, if_false, List.mem_cons] at h
      rcases h with rfl | h
      · exact ⟨List.mem_cons_self _ _, hd⟩
      · obtain ⟨h1, h2⟩ := ih (x.id :: seen) e h
        exact ⟨List.mem_cons_of_mem _ h1, fun hc => h2 (List.mem_cons_of_mem _ hc)⟩

theorem firstDeliveries_nodup (evs : List event) :
    ∀ seen : List Int, ((firstDeliveries seen evs).map (fun e => e.id)).Nodup := by
  induction evs with
  | nil => intro seen; simp [firstDeliveries]
  | cons x xs ih =>
    intro seen
    by_cases hd : x.id ∈ seen
    · simp only [firstDeliveries, hd, if_true]
      exact ih seen
    · simp only [firstDeliveries, hd, if_false, List.map_cons, List.nodup_cons]
      refine ⟨?_, ih _⟩
      intro hmem
      obtain ⟨f, hf, hfid⟩ := List.mem_map.mp hmem
      exact (firstDeliveries_mem xs _ f hf).2 (by rw [hfid]; exact List.mem_cons_self _ _)

theorem firstDeliveries_cover (evs : List event) :
    ∀ (seen : List Int) (e : event), e ∈ evs → e.id ∉ seen →
      ∃ f ∈ firstDeliveries seen evs, f.id = e.id := by
  induction evs with
  | nil => intro seen e h; simp at h
  | cons x xs ih =>
    intro seen e he hs
    by_cases hd : x.id ∈ seen
    · simp only [firstDeliveries, hd, if_true]
      rcases List.mem_cons.mp he with rfl | he
      · exact absurd hd hs
      · exact ih seen e he hs
    · simp only [firstDeliveries, hd, if_false]
      by_cases hx : e.id = x.id
      · exact ⟨x, List.mem_cons_self _ _, hx.symm⟩
      · rcases List.mem_cons.mp he with rfl | he
        · exact absurd rfl hx
        · obtain ⟨f, hf, hfid⟩ := ih (x.id :: seen) e he (by
            intro hc
            rcases List.mem_cons.mp hc with h | h
            · exact hx h
            · exact hs h)
          exact ⟨f, List.mem_cons_of_mem _ hf, hfid⟩

/-- With ids that keep to one TTL, the first deliveries with TTL `t` are as many as the
ids carried with TTL `t`. -/
theorem probesAt_firstDeliveries (evs : List event) (t : Int)
    (h : ∀ e ∈ evs, ∀ e' ∈ evs, e.id = e'.id → e.sendTTL = t → e'.sendTTL = t) :
    probesAt (firstDeliveries [] evs) t = (idsAt evs t).card := by
  have hnd : (((firstDeliveries [] evs).filter (fun e => decide (t = e.sendTTL))).map
      (fun e => e.id)).Nodup :=
    List.Nodup.sublist (List.Sublist.map _ (List.filter_sublist _))
      (firstDeliveries_nodup evs [])
  have hset : (((firstDeliveries [] evs).filter (fun e => decide (t = e.sendTTL))).map
      (fun e => e.id)).toFinset = idsAt evs t := by
    ext i
    rw [mem_idsAt, List.mem_toFinset, List.mem_map]
    constructor
    · rintro ⟨f, hf, hfid⟩
      rw [List.mem_filter] at hf
      exact ⟨f, (firstDeliveries_mem evs [] f hf.1).1, (of_decide_eq_true hf.2).symm, hfid⟩
    · rintro ⟨e, he, het, hei⟩
      obtain ⟨f, hf, hfid⟩ := firstDeliveries_cover evs [] e he (by simp)
      refine ⟨f, ?_, by rw [hfid, hei]⟩
      rw [List.mem_filter]
      refine ⟨hf, ?_⟩
      have := h e he f (firstDeliveries_mem evs [] f hf).1 hfid.symm het
      exact decide_eq_true this.symm
  unfold probesAt
  rw [List.countP_eq_length_filter, ← hset, List.toFinset_card_of_nodup hnd, List.length_map]

theorem collectResponse_firstDeliveries (lib : Stdlib) (cfg : Config) (evs : List event)
    (hT : 0 ≤ cfg.MaxTTL) (hr : ∀ e ∈ evs, 1 ≤ e.sendTTL ∧ e.sendTTL ≤ cfg.MaxTTL) :
    collectResponse lib cfg evs = collectResponse lib cfg (firstDeliveries [] evs) := by
  rw [collectResponse_eq _ _ _ hT, collectResponse_eq _ _ _ hT]
  have hlen := (Inv_fresh cfg hT).len
  exact collectFrom_firstDeliveries lib cfg evs _ (by
    intro e he
    rw [hlen]
    exact hr e he)

/-- The conditions of `Outcome` only look at the number of events per TTL and at the TTLs
of the Unreachable events. -/
theorem Outcome.congr {cfg : Config} {K : Int} {st : State} {rest rest' : List event}
    {c : Nat} {d : Bool}
    (hcount : ∀ t, probesAt rest' t = probesAt rest t)
    (hunr : ∀ x : Int, (∃ e ∈ rest', e.eType = eventType.eventUnavailable ∧ e.sendTTL = x) ↔
      (∃ e ∈ rest, e.eType = eventType.eventUnavailable ∧ e.sendTTL = x))
    (h : Outcome cfg K st rest c d) : Outcome cfg K st rest' c d := by
  constructor
  · exact h.leK
  · intro t h1 h2; rw [hcount]; exact h.full t h1 h2
  · exact h.leLast
  · intro x hx hu
    obtain ⟨y, hy, hyu, hyt⟩ := (hunr x.sendTTL).mp ⟨x, hx, hu, rfl⟩
    have := h.leUnav y hy hyu
    omega
  · intro hd
    rcases h.done hd with heq | hex
    · exact Or.inl heq
    · exact Or.inr ((hunr c).mpr hex)
  · intro hd
    obtain ⟨g1, g2, g3, g4⟩ := h.going hd
    refine ⟨by rw [hcount]; exact g1, g2, ?_, g4⟩
    intro x hx hu
    obtain ⟨y, hy, hyu, hyt⟩ := (hunr x.sendTTL).mp ⟨x, hx, hu, rfl⟩
    have := g3 y hy hyu
    omega

/-! ## What a row holds -/

theorem bucketOf_appendBucket (m : Buckets) (k v key : String) :
    bucketOf (appendBucket m k v) key = bucketOf m key ++ (if k = key then [v] else []) := by
  induction m with
  | nil => simp [appendBucket, bucketOf]
  | cons kv m ih =>
    obtain ⟨k', vs⟩ := kv
    by_cases h : k' = k
    · subst h
      by_cases h2 : k' = key <;> simp [appendBucket, bucketOf, h2]
    · by_cases h2 : k' = key
      · subst h2
        have h3 : ¬ k = k' := fun hc => h hc.symm
        simp [appendBucket, bucketOf, h, h3]
      · simp [appendBucket, bucketOf, h, h2, ih]

theorem rowBucket_appendRow (rows : List ResponseForTTL) (u t : Int) (k v key : String)
    (hu : 1 ≤ u) (hlen : u ≤ rows.length) :
    rowBucket (appendRow rows (u - 1).toNat k v) t key
      = rowBucket rows t key ++ (if t = u ∧ k = key then [v] else []) := by
  unfold rowBucket
  by_cases ht : 1 ≤ t
  · simp only [ht, if_true]
    by_cases htu : t = u
    · subst htu
      rw [appendRow_getElem?_eq]
      have hlt : (t - 1).toNat < rows.length := by omega
      rw [List.getElem?_eq_getElem hlt]
      simp only [Option.map_some', true_and]
      exact bucketOf_appendBucket _ _ _ _
    · have hne : (t - 1).toNat ≠ (u - 1).toNat := by omega
      rw [appendRow_getElem?_ne _ _ _ _ _ hne]
      simp [htu]
  · have : ¬ (t = u ∧ k = key) := fun h => ht (by omega)
    simp [ht, this]

theorem rowBucket_new (n : Nat) (t : Int) (key : String) :
    rowBucket ((List.range n).map
      (fun (i : Nat) => ({ TTL := (i : Int) + 1, PacketsForIP := [] } : ResponseForTTL))) t key
      = [] := by
  unfold rowBucket
  split
  · rw [List.getElem?_map]
    cases (List.range n)[(t - 1).toNat]? <;> simp [bucketOf]
  · rfl

theorem record_outcomeOf (lib : Stdlib) (st : State) (e : event) :
    (record lib st e).1
      = appendRow st.response (e.sendTTL - 1).toNat (outcomeOf lib e).1 (outcomeOf lib e).2 := by
  unfold record outcomeOf
  cases e.eType <;> rfl

theorem recorded_cons (lib : Stdlib) (e : event) (es : List event) (t : Int) (key : String) :
    recorded lib (e :: es) t key
      = (if e.sendTTL = t ∧ (outcomeOf lib e).1 = key then [(outcomeOf lib e).2] else [])
        ++ recorded lib es t key := by
  unfold recorded
  by_cases h : e.sendTTL = t ∧ (outcomeOf lib e).1 = key
  · simp [List.filter_cons, h]
  · simp [List.filter_cons, h]

/-- The events that a run of the loop has recorded: they are events of the list with ids
that were new, each id once, and the rows hold their outcomes in arrival order. -/
theorem collectFrom_trace (lib : Stdlib) (cfg : Config) (evs : List event) :
    ∀ st st', collectFrom lib cfg st evs = some st' →
      ∃ done : List event,
        (∀ e ∈ done, e ∈ evs ∧ e.id ∉ st.processedEvents) ∧
        (done.map (fun e => e.id)).Nodup ∧
        (∀ t key, rowBucket st'.response t key
          = rowBucket st.response t key ++ recorded lib done t key) ∧
        (∀ t, rowCount st'.response t = rowCount st.response t + probesAt done t) := by
  induction evs with
  | nil =>
    intro st st' h
    simp only [collectFrom, Option.some.injEq] at h
    subst h
    exact ⟨[], by simp, by simp, by simp [recorded], by simp [probesAt]⟩
  | cons e es ih =>
    intro st st' h
    by_cases hb : st.eof = true
    · rw [collectFrom_eof _ _ _ _ hb] at h
      cases h
      exact ⟨[], by simp, by simp, by simp [recorded], by simp [probesAt]⟩
    · cases hs : processEvent lib cfg st e with
      | none => simp [collectFrom, hb, hs] at h
      | some st1 =>
        have h' : collectFrom lib cfg st1 es = some st' := by
          simpa [collectFrom, hb, hs] using h
        obtain ⟨done, hmem, hnd, hbk, hcnt⟩ := ih st1 st' h'
        obtain ⟨h1, h2, hc⟩ := processEvent_cases lib cfg st st1 e hs
        rcases hc with ⟨_, heq⟩ | ⟨hd, hresp, hseen, _⟩
        · subst heq
          exact ⟨done, fun x hx => ⟨List.mem_cons_of_mem _ (hmem x hx).1, (hmem x hx).2⟩,
            hnd, hbk, hcnt⟩
        · refine ⟨e :: done, ?_, ?_, ?_, ?_⟩
          · intro x hx
            rcases List.mem_cons.mp hx with rfl | hx
            · exact ⟨List.mem_cons_self _ _, hd⟩
            · refine ⟨List.mem_cons_of_mem _ (hmem x hx).1, fun hc => (hmem x hx).2 ?_⟩
              rw [hseen]; exact List.mem_cons_of_mem _ hc
          · rw [List.map_cons, List.nodup_cons]
            refine ⟨?_, hnd⟩
            intro hc
            obtain ⟨x, hx, hxid⟩ := List.mem_map.mp hc
            apply (hmem x hx).2
            rw [hseen, hxid]
            exact List.mem_cons_self _ _
          · intro t key
            rw [hbk, hresp, record_outcomeOf, rowBucket_appendRow _ _ _ _ _ _ h1 h2,
              recorded_cons, List.append_assoc]
            congr 2
            by_cases hm : e.sendTTL = t ∧ (outcomeOf lib e).1 = key
            · have hm' : t = e.sendTTL ∧ (outcomeOf lib e).1 = key := ⟨hm.1.symm, hm.2⟩
              rw [if_pos hm, if_pos hm']
            · have hm' : ¬ (t = e.sendTTL ∧ (outcomeOf lib e).1 = key) :=
                fun hc => hm ⟨hc.1.symm, hc.2⟩
              rw [if_neg hm, if_neg hm']
          · intro t
            rw [hcnt, hresp, rowCount_record lib st e t h1 h2, probesAt_cons]
            omega

theorem recorded_by_ids (lib : Stdlib) (g : Int → String × String) (t : Int) (key : String)
    (done : List event) (hg : ∀ e ∈ done, outcomeOf lib e = g e.id) :
    recorded lib done t key
      = ((((done.filter (fun e => decide (e.sendTTL = t))).map (fun e => e.id)).filter
          (fun x => decide ((g x).1 = key))).map (fun x => (g x).2)) := by
  induction done with
  | nil => simp [recorded]
  | cons e es ih =>
    have he := hg e (List.mem_cons_self _ _)
    have ih' := ih (fun x hx => hg x (List.mem_cons_of_mem _ hx))
    rw [recorded_cons, ih']
    by_cases h1 : e.sendTTL = t
    · by_cases h2 : (g e.id).1 = key
      · simp [List.filter_cons, h1, h2, he]
      · simp [List.filter_cons, h1, h2, he]
    · simp [List.filter_cons, h1]

theorem outcomeOfId_eq (lib : Stdlib) (ref : List event)
    (hsame : ∀ e ∈ ref, ∀ e' ∈ ref, e.id = e'.id → outcomeOf lib e = outcomeOf lib e')
    (e : event) (he : e ∈ ref) : outcomeOf lib e = outcomeOfId lib ref e.id := by
  unfold outcomeOfId
  cases hf : ref.find? (fun x => decide (x.id = e.id)) with
  | none =>
    rw [List.find?_eq_none] at hf
    exact absurd (decide_eq_true rfl) (hf e he)
  | some f =>
    have h1 := List.mem_of_find?_eq_some hf
    have h2 := of_decide_eq_true
      (List.find?_some (p := fun (x : event) => decide (x.id = e.id)) hf)
    exact hsame e he f h1 h2.symm

/-- Under the quota, each row sent holds in each bucket the outcomes of all ids of its
TTL that record in that bucket, each id once. -/
theorem sent_contents (lib : Stdlib) (cfg : Config) (evs ref : List event)
    (hT : 0 ≤ cfg.MaxTTL)
    (hrange : ∀ e ∈ evs, 1 ≤ e.sendTTL ∧ e.sendTTL ≤ cfg.MaxTTL)
    (hquota : ∀ t : Int, ((idsAt evs t).card : Int) ≤ cfg.NumProbes)
    (hsub : ∀ e ∈ evs, e ∈ ref)
    (hsame : ∀ e ∈ ref, ∀ e' ∈ ref, e.id = e'.id → outcomeOf lib e = outcomeOf lib e') :
    ∃ st, collectResponse lib cfg evs = some st ∧
      ∀ (t : Int) (key : String),
        (¬ (1 ≤ t ∧ t ≤ st.currentRow) ∧ rowBucket st.sent t key = []) ∨
        ((1 ≤ t ∧ t ≤ st.currentRow) ∧ ∃ L : List Int, L.Nodup ∧ L.toFinset = idsAt evs t ∧
          rowBucket st.sent t key
            = (L.filter (fun x => decide ((outcomeOfId lib ref x).1 = key))).map
                (fun x => (outcomeOfId lib ref x).2)) := by
  obtain ⟨st, hrun, hQ, _, _⟩ :=
    quota_run lib cfg evs _ [] (by simpa using Quota_init cfg evs hT hrange hquota)
  obtain ⟨done, hmem, hnd, hbk, hcnt⟩ := collectFrom_trace lib cfg evs _ st hrun
  refine ⟨st, by rw [collectResponse_eq _ _ _ hT]; exact hrun, ?_⟩
  intro t key
  by_cases ht : 1 ≤ t ∧ t ≤ st.currentRow
  · right
    refine ⟨ht, (done.filter (fun e => decide (e.sendTTL = t))).map (fun e => e.id), ?_, ?_, ?_⟩
    · exact List.Nodup.sublist (List.Sublist.map _ (List.filter_sublist _)) hnd
    · have hnd' : ((done.filter (fun e => decide (e.sendTTL = t))).map (fun e => e.id)).Nodup :=
        List.Nodup.sublist (List.Sublist.map _ (List.filter_sublist _)) hnd
      apply Finset.eq_of_subset_of_card_le
      · intro i hi
        rw [List.mem_toFinset, List.mem_map] at hi
        obtain ⟨e, he, hei⟩ := hi
        rw [List.mem_filter] at he
        rw [mem_idsAt]
        exact ⟨e, (hmem e he.1).1, of_decide_eq_true he.2, hei⟩
      · rw [List.toFinset_card_of_nodup hnd', List.length_map]
        have hfull := hQ.full t ht.1 ht.2
        have hc := hcnt t
        have h0 : rowCount (initState cfg (freshRows cfg)).response t = 0 := rowCount_new _ t
        have hlen : (done.filter (fun e => decide (e.sendTTL = t))).length = probesAt done t := by
          unfold probesAt
          rw [List.countP_eq_length_filter]
          congr 1
          apply List.filter_congr
          intro x _
          by_cases hx : x.sendTTL = t
          · simp [hx]
          · have : ¬ t = x.sendTTL := fun h => hx h.symm
            simp [hx, this]
        have := hquota t
        omega
    · have hidx : (t - 1).toNat < st.currentRow := by omega
      have h1 : rowBucket st.sent t key = rowBucket st.response t key := by
        unfold rowBucket
        rw [hQ.same, List.getElem?_take_of_lt hidx]
      have h0 : rowBucket (initState cfg (freshRows cfg)).response t key = [] :=
        rowBucket_new _ t key
      rw [h1, hbk, h0, List.nil_append]
      exact recorded_by_ids lib _ t key done
        (fun e he => outcomeOfId_eq lib ref hsame e (hsub e (hmem e he).1))
  · left
    refine ⟨ht, ?_⟩
    unfold rowBucket
    by_cases h1 : 1 ≤ t
    · have hlen : st.sent.length = st.currentRow := by
        have := congrArg List.length hQ.inv.sentTTL
        simpa using this
      have : st.sent[(t - 1).toNat]? = none := by
        rw [List.getElem?_eq_none_iff]
        omega
      simp only [h1, if_true, this]
    · simp only [h1, if_false]

/-! ## An Unreachable event that arrives when its row is out -/

theorem advance_at_end (N L : Int) (data : List ResponseForTTL) (c : Nat)
    (sent : List ResponseForTTL) (h : ¬ ((c : Int) < L)) :
    advance N L data c sent = some (c, sent) := by
  cases data <;> simp [advance, h]

theorem collectFrom_lastTTL_ge (lib : Stdlib) (cfg : Config) (k : Int) (evs : List event) :
    ∀ st st', collectFrom lib cfg st evs = some st' → k ≤ st.lastTTL →
      (∀ e ∈ evs, e.eType = eventType.eventUnavailable → k ≤ e.sendTTL) →
      k ≤ st'.lastTTL := by
  induction evs with
  | nil =>
    intro st st' h hk _
    simp only [collectFrom, Option.some.injEq] at h
    subst h; exact hk
  | cons e es ih =>
    intro st st' h hk hu
    by_cases hb : st.eof = true
    · rw [collectFrom_eof _ _ _ _ hb] at h
      cases h; exact hk
    · cases hs : processEvent lib cfg st e with
      | none => simp [collectFrom, hb, hs] at h
      | some st1 =>
        have h' : collectFrom lib cfg st1 es = some st' := by
          simpa [collectFrom, hb, hs] using h
        apply ih st1 st' h' ?_ (fun x hx => hu x (List.mem_cons_of_mem _ hx))
        obtain ⟨_, _, hc⟩ := processEvent_cases lib cfg st st1 e hs
        rcases hc with ⟨_, heq⟩ | ⟨_, _, _, hlast⟩
        · subst heq; exact hk
        · obtain ⟨_, _, _, h2⟩ := record_eq lib st e
          rw [hlast, h2]
          split
          · rename_i hcond
            exact hu e (List.mem_cons_self _ _) hcond.1
          · exact hk

theorem collectFrom_processed (lib : Stdlib) (cfg : Config) (evs : List event) :
    ∀ st st', collectFrom lib cfg st evs = some st' →
      ∀ x ∈ st'.processedEvents, x ∈ st.processedEvents ∨ ∃ e ∈ evs, e.id = x := by
  induction evs with
  | nil =>
    intro st st' h x hx
    simp only [collectFrom, Option.some.injEq] at h
    subst h; exact Or.inl hx
  | cons e es ih =>
    intro st st' h x hx
    by_cases hb : st.eof = true
    · rw [collectFrom_eof _ _ _ _ hb] at h
      cases h; exact Or.inl hx
    · cases hs : processEvent lib cfg st e with
      | none => simp [collectFrom, hb, hs] at h
      | some st1 =>
        have h' : collectFrom lib cfg st1 es = some st' := by
          simpa [collectFrom, hb, hs] using h
        rcases ih st1 st' h' x hx with h1 | ⟨y, hy, hyx⟩
        · obtain ⟨_, _, hc⟩ := processEvent_cases lib cfg st st1 e hs
          rcases hc with ⟨_, heq⟩ | ⟨_, _, hseen, _⟩
          · subst heq; exact Or.inl h1
          · rw [hseen] at h1
            rcases List.mem_cons.mp h1 with h2 | h2
            · exact Or.inr ⟨e, List.mem_cons_self _ _, h2.symm⟩
            · exact Or.inl h2
        · exact Or.inr ⟨y, List.mem_cons_of_mem _ hy, hyx⟩

/-! ## The claims -/

/-- C1: for a Config with `MaxTTL ≥ 1` and `NumProbes ≥ 1` and any events with `sendTTL` in
`[1, MaxTTL]`, `collectResponse` returns and the rows it has sent carry the TTLs
`1, 2, ..., n` in that order, for some `n ≤ MaxTTL`. -/
theorem rows_in_ttl_order (lib : Stdlib) (cfg : Config) (evs : List event)
    (hM : 1 ≤ cfg.MaxTTL) (_ : 1 ≤ cfg.NumProbes)
    (hr : ∀ e ∈ evs, 1 ≤ e.sendTTL ∧ e.sendTTL ≤ cfg.MaxTTL) :
    ∃ st, collectResponse lib cfg evs = some st ∧
      ∃ n : Nat, (n : Int) ≤ cfg.MaxTTL ∧
        st.sent.map (fun r => r.TTL) = (List.range n).map (fun (i : Nat) => (i : Int) + 1) := by
  obtain ⟨st, hs, hI⟩ := Inv_collectResponse lib cfg evs (by omega) hr
  refine ⟨st, hs, st.currentRow, ?_, hI.sentTTL⟩
  have := hI.cur
  have := hI.len
  omega

theorem rows_in_ttl_order_witness :
    ∃ st, collectResponse demoLib (demoConfig 3 2) scenarioFull = some st ∧
      ∃ n : Nat, (n : Int) ≤ (demoConfig 3 2).MaxTTL ∧
        st.sent.map (fun r => r.TTL) = (List.range n).map (fun (i : Nat) => (i : Int) + 1) :=
  rows_in_ttl_order demoLib (demoConfig 3 2) scenarioFull (by decide) (by decide) (by decide)


/-- C2: let `k < MaxTTL`. (1) When no Unreachable event has a TTL below `k`, some probe of
TTL `k` has only Unreachable events, each TTL in `1..k` carries exactly `NumProbes` ids
(probes; one id may come with several events), and these ids come with no other TTL (the
events with TTL above `k` are arbitrary), then in every arrival order `collectResponse`
sends exactly the rows of TTL `1..k`, ends with `lastTTL = k`, and processes no event that
arrives afterwards. (2) When the rows `1..k` are out and the loop still runs after the
events `p`, none of them Unreachable below `k`, an Unreachable event of TTL `k` with a new
id ends the loop at once: `lastTTL = k`, no further row is sent, and the events after it
are not processed. -/
theorem unreachable_ends_sweep (lib : Stdlib) (cfg : Config) (k : Nat)
    (hk : (k : Int) < cfg.MaxTTL) :
    (∀ evs : List event,
      (∀ e ∈ evs, 1 ≤ e.sendTTL ∧ e.sendTTL ≤ cfg.MaxTTL) →
      (∀ e ∈ evs, ∀ e' ∈ evs, e.id = e'.id → e.sendTTL ≤ k → e'.sendTTL = e.sendTTL) →
      (∀ t : Int, 1 ≤ t → t ≤ k → ((idsAt evs t).card : Int) = cfg.NumProbes) →
      (∃ e ∈ evs, e.sendTTL = k ∧
        ∀ e' ∈ evs, e'.id = e.id → e'.eType = eventType.eventUnavailable) →
      (∀ e ∈ evs, e.eType = eventType.eventUnavailable → (k : Int) ≤ e.sendTTL) →
      ∃ st, collectResponse lib cfg evs = some st ∧ st.eof = true ∧ st.lastTTL = k ∧
        st.sent.map (fun r => r.TTL) = (List.range k).map (fun (i : Nat) => (i : Int) + 1) ∧
        ∀ more, collectResponse lib cfg (evs ++ more) = some st) ∧
    (∀ (p q : List event) (u : event) (sp : State),
      (∀ e ∈ p, 1 ≤ e.sendTTL ∧ e.sendTTL ≤ cfg.MaxTTL) →
      (∀ e ∈ p, e.eType = eventType.eventUnavailable → (k : Int) ≤ e.sendTTL) →
      collectResponse lib cfg p = some sp → sp.eof = false → sp.currentRow = k →
      u.eType = eventType.eventUnavailable → u.sendTTL = k → 1 ≤ u.sendTTL →
      (∀ e ∈ p, e.id ≠ u.id) →
      ∃ st, collectResponse lib cfg (p ++ u :: q) = some st ∧ st.eof = true ∧
        st.lastTTL = k ∧ st.sent = sp.sent ∧
        st.sent.map (fun r => r.TTL) = (List.range k).map (fun (i : Nat) => (i : Int) + 1)) := by
  have hT : 0 ≤ cfg.MaxTTL := by omega
  constructor
  · intro evs hrange hone hcount hunr hmin
    obtain ⟨e0, he0, hk0, hall0⟩ := hunr
    have hk1 : (1 : Int) ≤ k := by have := (hrange e0 he0).1; omega
    have hN : cfg.NumProbes ≠ 0 := by
      have h1 : 0 < (idsAt evs e0.sendTTL).card :=
        Finset.card_pos.mpr ⟨e0.id, (mem_idsAt _ _ _).mpr ⟨e0, he0, rfl, rfl⟩⟩
      have h2 := hcount e0.sendTTL (by omega) (by omega)
      omega
    have hFmem := firstDeliveries_mem evs []
    obtain ⟨f0, hf0, hfid0⟩ := firstDeliveries_cover evs [] e0 he0 (by simp)
    have hf0u : f0.eType = eventType.eventUnavailable := hall0 f0 (hFmem f0 hf0).1 hfid0
    have hf0k : f0.sendTTL = k := by
      have := hone e0 he0 f0 (hFmem f0 hf0).1 hfid0.symm (by omega)
      omega
    have hcountF : ∀ t : Int, 1 ≤ t → t ≤ k →
        (probesAt (firstDeliveries [] evs) t : Int) = cfg.NumProbes := by
      intro t h1 h2
      rw [probesAt_firstDeliveries evs t]
      · exact hcount t h1 h2
      · intro e he e' he' hid het
        have := hone e he e' he' hid (by omega)
        omega
    obtain ⟨st, hrunF, hI, hO⟩ := collect_sweep lib cfg k (firstDeliveries [] evs)
      (by omega) hN (fun e he => hrange e (hFmem e he).1)
      (distinctUpTo_of_nodup _ _ (firstDeliveries_nodup evs []))
      (fun t h1 h2 => le_of_eq (hcountF t h1 h2))
      (Or.inr ⟨f0, hf0, hf0u, by omega⟩)
    have hrun : collectResponse lib cfg evs = some st := by
      rw [collectResponse_firstDeliveries lib cfg evs hT hrange]; exact hrunF
    have heof : st.eof = true := by
      by_contra hcon
      have hf : st.eof = false := by simpa using hcon
      obtain ⟨g1, g2⟩ := hO.init_going hf
      exact g1 (hcountF _ (by omega) (by omega))
    have hc : st.currentRow = k := by
      have hle := hO.leK
      rcases hO.done heof with h | ⟨x, hx, hu, hxc⟩
      · simp only [initState] at h; omega
      · have := hmin x (hFmem x hx).1 hu; omega
    refine ⟨st, hrun, heof, ?_, ?_,
      fun more => collectResponse_after_eof lib cfg evs more st hrun heof⟩
    · have := hI.eofCur heof; omega
    · rw [← hc]; exact hI.sentTTL
  · intro p q u sp hrange hmin hp hne hcur hu huk hu1 hnew
    obtain ⟨sp', hp', hI⟩ := Inv_collectResponse lib cfg p hT hrange
    rw [hp] at hp'
    cases hp'
    have hpF : collectFrom lib cfg (initState cfg (freshRows cfg)) p = some sp := by
      rw [← collectResponse_eq _ _ _ hT]; exact hp
    have hlast : (k : Int) ≤ sp.lastTTL :=
      collectFrom_lastTTL_ge lib cfg k p _ sp hpF (by simp only [initState]; omega) hmin
    have hd : u.id ∉ sp.processedEvents := by
      intro hc
      rcases collectFrom_processed lib cfg p _ sp hpF u.id hc with h | ⟨e, he, hid⟩
      · simp [initState] at h
      · exact hnew e he hid
    have hlen := hI.len
    have hr : ¬ (u.sendTTL - 1 < 0 ∨ (sp.response.length : Int) ≤ u.sendTTL - 1) := by omega
    have hrec : (record lib sp u).2 = k := by
      obtain ⟨_, _, _, h2⟩ := record_eq lib sp u
      rw [h2]
      by_cases hc : u.eType = eventType.eventUnavailable ∧ u.sendTTL < sp.lastTTL
      · rw [if_pos hc]; exact huk
      · rw [if_neg hc]
        have : ¬ u.sendTTL < sp.lastTTL := fun h => hc ⟨hu, h⟩
        omega
    have hstop : ¬ ((sp.currentRow : Int) < (record lib sp u).2) := by rw [hrec, hcur]; omega
    have hstep : processEvent lib cfg sp u = some
        { response := (record lib sp u).1
          processedEvents := u.id :: sp.processedEvents
          lastTTL := (record lib sp u).2
          currentRow := sp.currentRow
          sent := sp.sent
          eof := decide ((sp.currentRow : Int) = (record lib sp u).2) } := by
      simp only [processEvent, hr, hd, if_false, advance_at_end _ _ _ _ _ hstop]
    have hb : ¬ sp.eof = true := by rw [hne]; simp
    have hdec : decide ((sp.currentRow : Int) = (record lib sp u).2) = true := by
      rw [hrec, hcur]; simp
    refine ⟨{ response := (record lib sp u).1
              processedEvents := u.id :: sp.processedEvents
              lastTTL := (record lib sp u).2
              currentRow := sp.currentRow
              sent := sp.sent
              eof := decide ((sp.currentRow : Int) = (record lib sp u).2) },
      ?_, hdec, hrec, rfl, ?_⟩
    · rw [collectResponse_eq _ _ _ hT, collectFrom_append, hpF]
      simp only [Option.some_bind, collectFrom, hb, if_false, hstep]
      exact collectFrom_eof _ _ _ _ hdec
    · show sp.sent.map (fun r => r.TTL) = _
      rw [← hcur]; exact hI.sentTTL

theorem unreachable_ends_sweep_witness :
    (∃ st, collectResponse demoLib (demoConfig 3 1) scenarioRouter = some st ∧
      st.eof = true ∧ st.lastTTL = (2 : Nat) ∧
      st.sent.map (fun r => r.TTL) = (List.range 2).map (fun (i : Nat) => (i : Int) + 1) ∧
      ∀ more, collectResponse demoLib (demoConfig 3 1) (scenarioRouter ++ more) = some st) ∧
    (∃ st, collectResponse demoLib (demoConfig 3 2)
        (scenarioBefore ++ demoEvent eventType.eventUnavailable 5 2
          :: [demoEvent eventType.eventUnavailable 6 2]) = some st ∧
      st.eof = true ∧ st.lastTTL = (2 : Nat) ∧
      st.sent.map (fun r => r.TTL) = (List.range 2).map (fun (i : Nat) => (i : Int) + 1)) := by
  constructor
  · exact (unreachable_ends_sweep demoLib (demoConfig 3 1) 2 (by decide)).1 scenarioRouter
      (by decide) (by decide)
      (by
        intro t h1 h2
        have h3 : t ≤ 2 := h2
        have : t = 1 ∨ t = 2 := by omega
        rcases this with rfl | rfl <;> decide)
      (by decide) (by decide)
  · obtain ⟨sp, hsp, hne, hcur⟩ :
        ∃ sp, collectResponse demoLib (demoConfig 3 2) scenarioBefore = some sp ∧
          sp.eof = false ∧ sp.currentRow = 2 := by
      decide
    obtain ⟨st, h1, h2, h3, _, h5⟩ :=
      (unreachable_ends_sweep demoLib (demoConfig 3 2) 2 (by decide)).2 scenarioBefore
        [demoEvent eventType.eventUnavailable 6 2] (demoEvent eventType.eventUnavailable 5 2)
        sp (by decide) (by decide) hsp hne hcur (by decide) (by decide) (by decide)
        (by decide)
    exact ⟨st, h1, h2, h3, h5⟩

/-- C3: for events with `sendTTL` in `[1, MaxTTL]`, `collectResponse` returns and every row
it has sent held, when it was sent, exactly `NumProbes` outcome strings over all its
buckets. -/
theorem sent_rows_complete (lib : Stdlib) (cfg : Config) (evs : List event)
    (hT : 0 ≤ cfg.MaxTTL) (hr : ∀ e ∈ evs, 1 ≤ e.sendTTL ∧ e.sendTTL ≤ cfg.MaxTTL) :
    ∃ st, collectResponse lib cfg evs = some st ∧
      ∀ r ∈ st.sent, (probesForTTL r : Int) = cfg.NumProbes := by
  obtain ⟨st, hs, hI⟩ := Inv_collectResponse lib cfg evs hT hr
  exact ⟨st, hs, hI.sentFull⟩

theorem sent_rows_complete_witness :
    ∃ st, collectResponse demoLib (demoConfig 3 2) scenarioEarly = some st ∧
      ∀ r ∈ st.sent, (probesForTTL r : Int) = (demoConfig 3 2).NumProbes :=
  sent_rows_complete demoLib (demoConfig 3 2) scenarioEarly (by decide) (by decide)

/-- C4, as stated, fails: a Time Exceeded and an Unreachable event for the same probe
(id 1, TTL 1) followed by a time-out at TTL 2 give the rows of TTL 1 and 2, and the same
events with the first two swapped give the row of TTL 1 only. -/
theorem order_matters_for_same_id :
    List.Perm
      [demoEvent eventType.eventTimeExceeded 1 1, demoEvent eventType.eventUnavailable 1 1,
        demoEvent eventType.eventNoResponse 2 2]
      [demoEvent eventType.eventUnavailable 1 1, demoEvent eventType.eventTimeExceeded 1 1,
        demoEvent eventType.eventNoResponse 2 2] ∧
    (collectResponse demoLib (demoConfig 2 1)
      [demoEvent eventType.eventTimeExceeded 1 1, demoEvent eventType.eventUnavailable 1 1,
        demoEvent eventType.eventNoResponse 2 2]).map (fun s => s.sent.map (fun r => r.TTL))
      = some [1, 2] ∧
    (collectResponse demoLib (demoConfig 2 1)
      [demoEvent eventType.eventUnavailable 1 1, demoEvent eventType.eventTimeExceeded 1 1,
        demoEvent eventType.eventNoResponse 2 2]).map (fun s => s.sent.map (fun r => r.TTL))
      = some [1] :=
  ⟨List.Perm.swap _ _ _, by decide, by decide⟩

/-- More events for a TTL than `NumProbes` also make the order matter, with distinct ids:
two time-outs at TTL 2 that arrive before the one at TTL 1 leave row 2 with two strings,
which is never `NumProbes = 1`; arriving after it, the first of them completes row 2. -/
theorem order_matters_beyond_quota :
    (collectResponse demoLib (demoConfig 2 1)
      [demoEvent eventType.eventNoResponse 2 2, demoEvent eventType.eventNoResponse 3 2,
        demoEvent eventType.eventNoResponse 1 1]).map (fun s => s.sent.map (fun r => r.TTL))
      = some [1] ∧
    (collectResponse demoLib (demoConfig 2 1)
      [demoEvent eventType.eventNoResponse 1 1, demoEvent eventType.eventNoResponse 2 2,
        demoEvent eventType.eventNoResponse 3 2]).map (fun s => s.sent.map (fun r => r.TTL))
      = some [1, 2] := by
  decide


theorem idsAt_perm (a b : List event) (h : a.Perm b) (t : Int) : idsAt a t = idsAt b t := by
  ext i
  rw [mem_idsAt, mem_idsAt]
  constructor
  · rintro ⟨e, he, h1, h2⟩; exact ⟨e, h.mem_iff.mp he, h1, h2⟩
  · rintro ⟨e, he, h1, h2⟩; exact ⟨e, h.mem_iff.mpr he, h1, h2⟩

theorem unavailable_firstDeliveries (evs : List event) (x : Int)
    (hfun : ∀ e ∈ evs, ∀ e' ∈ evs, e.id = e'.id → e.sendTTL = e'.sendTTL ∧
      (e.eType = eventType.eventUnavailable ↔ e'.eType = eventType.eventUnavailable)) :
    (∃ e ∈ firstDeliveries [] evs, e.eType = eventType.eventUnavailable ∧ e.sendTTL = x) ↔
      (∃ e ∈ evs, e.eType = eventType.eventUnavailable ∧ e.sendTTL = x) := by
  constructor
  · rintro ⟨e, he, hu, ht⟩
    exact ⟨e, (firstDeliveries_mem evs [] e he).1, hu, ht⟩
  · rintro ⟨e, he, hu, ht⟩
    obtain ⟨f, hf, hfid⟩ := firstDeliveries_cover evs [] e he (by simp)
    obtain ⟨h1, h2⟩ := hfun e he f (firstDeliveries_mem evs [] f hf).1 hfid.symm
    exact ⟨f, hf, h2.mp hu, by omega⟩

/-- C4, amended: for events with `sendTTL` in `[1, MaxTTL]` in which the events of one id
have one TTL and are all Unreachable or all not, and which carry at most `NumProbes`
distinct ids per TTL, `collectResponse` returns on the list and on every permutation of
it, with the same TTLs of the rows sent and the same end flag; when moreover the events of
one id record the same outcome (as they do when the ids are pairwise distinct), the rows
sent hold the same entries in the same buckets and only the order inside a bucket may
differ; and an iteration of the loop changes no row but the one of the event's TTL. -/
theorem order_independent (lib : Stdlib) (cfg : Config) (evs evs' : List event)
    (hT : 0 ≤ cfg.MaxTTL) (hperm : evs.Perm evs')
    (hrange : ∀ e ∈ evs, 1 ≤ e.sendTTL ∧ e.sendTTL ≤ cfg.MaxTTL)
    (hfun : ∀ e ∈ evs, ∀ e' ∈ evs, e.id = e'.id → e.sendTTL = e'.sendTTL ∧
      (e.eType = eventType.eventUnavailable ↔ e'.eType = eventType.eventUnavailable))
    (hquota : ∀ t : Int, 1 ≤ t → t ≤ cfg.MaxTTL →
      ((idsAt evs t).card : Int) ≤ cfg.NumProbes) :
    (∃ st st', collectResponse lib cfg evs = some st ∧
      collectResponse lib cfg evs' = some st' ∧
      st.sent.map (fun r => r.TTL) = st'.sent.map (fun r => r.TTL) ∧ st.eof = st'.eof ∧
      ((∀ e ∈ evs, ∀ e' ∈ evs, e.id = e'.id → outcomeOf lib e = outcomeOf lib e') →
        ∀ (t : Int) (key : String),
          (rowBucket st.sent t key).Perm (rowBucket st'.sent t key))) ∧
    (∀ (s s1 : State) (e : event), processEvent lib cfg s e = some s1 →
      ∀ j : Nat, j ≠ (e.sendTTL - 1).toNat → s1.response[j]? = s.response[j]?) := by
  refine ⟨?_, fun s s1 e h j hj => processEvent_other_rows lib cfg s s1 e h j hj⟩
  cases evs with
  | nil =>
    have : evs' = [] := List.Perm.eq_nil hperm.symm
    subst this
    obtain ⟨st, hs, _⟩ := Inv_collectResponse lib cfg [] hT (by simp)
    exact ⟨st, st, hs, hs, rfl, rfl, fun _ _ _ => List.Perm.refl _⟩
  | cons e0 es =>
    have he0 : e0 ∈ e0 :: es := List.mem_cons_self _ _
    have hM : 1 ≤ cfg.MaxTTL := by have := hrange e0 he0; omega
    have hN1 : 1 ≤ cfg.NumProbes := by
      have h1 : 0 < (idsAt (e0 :: es) e0.sendTTL).card :=
        Finset.card_pos.mpr ⟨e0.id, (mem_idsAt _ _ _).mpr ⟨e0, he0, rfl, rfl⟩⟩
      have h2 := hquota e0.sendTTL (hrange e0 he0).1 (hrange e0 he0).2
      omega
    have hrange' : ∀ e ∈ evs', 1 ≤ e.sendTTL ∧ e.sendTTL ≤ cfg.MaxTTL :=
      fun e he => hrange e (hperm.mem_iff.mpr he)
    have hfun' : ∀ e ∈ evs', ∀ e' ∈ evs', e.id = e'.id → e.sendTTL = e'.sendTTL ∧
        (e.eType = eventType.eventUnavailable ↔ e'.eType = eventType.eventUnavailable) :=
      fun e he e' he' => hfun e (hperm.mem_iff.mpr he) e' (hperm.mem_iff.mpr he')
    have hids : ∀ t, idsAt evs' t = idsAt (e0 :: es) t :=
      fun t => (idsAt_perm _ _ hperm t).symm
    have hcF : ∀ t, probesAt (firstDeliveries [] (e0 :: es)) t
        = (idsAt (e0 :: es) t).card :=
      fun t => probesAt_firstDeliveries _ t (fun e he e' he' hid het => by
        have := (hfun e he e' he' hid).1; omega)
    have hcF' : ∀ t, probesAt (firstDeliveries [] evs') t = (idsAt (e0 :: es) t).card := by
      intro t
      rw [← hids t]
      exact probesAt_firstDeliveries _ t (fun e he e' he' hid het => by
        have := (hfun' e he e' he' hid).1; omega)
    obtain ⟨st, hrunF, hI, hO⟩ := collect_sweep lib cfg cfg.MaxTTL
      (firstDeliveries [] (e0 :: es)) hM (by omega)
      (fun e he => hrange e (firstDeliveries_mem _ [] e he).1)
      (distinctUpTo_of_nodup _ _ (firstDeliveries_nodup _ []))
      (fun t h1 h2 => by rw [hcF t]; exact hquota t h1 h2) (Or.inl (le_refl _))
    obtain ⟨st', hrunF', hI', hO'⟩ := collect_sweep lib cfg cfg.MaxTTL
      (firstDeliveries [] evs') hM (by omega)
      (fun e he => hrange' e (firstDeliveries_mem _ [] e he).1)
      (distinctUpTo_of_nodup _ _ (firstDeliveries_nodup _ []))
      (fun t h1 h2 => by rw [hcF' t]; exact hquota t h1 h2) (Or.inl (le_refl _))
    have hrun : collectResponse lib cfg (e0 :: es) = some st := by
      rw [collectResponse_firstDeliveries lib cfg _ hT hrange]; exact hrunF
    have hrun' : collectResponse lib cfg evs' = some st' := by
      rw [collectResponse_firstDeliveries lib cfg _ hT hrange']; exact hrunF'
    have hOc : Outcome cfg cfg.MaxTTL (initState cfg (freshRows cfg))
        (firstDeliveries [] evs') st.currentRow st.eof := by
      refine Outcome.congr (fun t => by rw [hcF' t, hcF t]) ?_ hO
      intro x
      rw [unavailable_firstDeliveries evs' x hfun',
        unavailable_firstDeliveries (e0 :: es) x hfun]
      constructor
      · rintro ⟨e, he, h⟩; exact ⟨e, hperm.mem_iff.mpr he, h⟩
      · rintro ⟨e, he, h⟩; exact ⟨e, hperm.mem_iff.mp he, h⟩
    obtain ⟨hc, hd⟩ := Outcome.unique hOc hO'
    refine ⟨st, st', hrun, hrun', by rw [hI.sentTTL, hI'.sentTTL, hc], hd, ?_⟩
    intro hsame t key
    have hqall : ∀ t : Int, ((idsAt (e0 :: es) t).card : Int) ≤ cfg.NumProbes := by
      intro t
      by_cases ht : 1 ≤ t ∧ t ≤ cfg.MaxTTL
      · exact hquota t ht.1 ht.2
      · have : idsAt (e0 :: es) t = ∅ := by
          ext i
          rw [mem_idsAt]
          simp only [Finset.not_mem_empty, iff_false]
          rintro ⟨e, he, het, _⟩
          have := hrange e he
          omega
        rw [this]; simp; omega
    obtain ⟨s1, hs1, hcont⟩ := sent_contents lib cfg (e0 :: es) (e0 :: es) hT hrange hqall
      (fun e he => he) hsame
    obtain ⟨s2, hs2, hcont'⟩ := sent_contents lib cfg evs' (e0 :: es) hT hrange'
      (fun t => by rw [hids t]; exact hqall t) (fun e he => hperm.mem_iff.mpr he) hsame
    rw [hrun] at hs1
    rw [hrun'] at hs2
    cases hs1
    cases hs2
    rcases hcont t key with ⟨hn, hb⟩ | ⟨hin, L, hLn, hLs, hLb⟩
    · rcases hcont' t key with ⟨_, hb'⟩ | ⟨hin', _⟩
      · rw [hb, hb']
      · rw [← hc] at hin'; exact absurd hin' hn
    · rcases hcont' t key with ⟨hn', _⟩ | ⟨_, L', hLn', hLs', hLb'⟩
      · rw [← hc] at hn'; exact absurd hin hn'
      · rw [hLb, hLb']
        have hp : L.Perm L' :=
          List.perm_of_nodup_nodup_toFinset_eq hLn hLn' (by rw [hLs, hLs', hids t])
        exact List.Perm.map _ (List.Perm.filter _ hp)

theorem order_independent_witness :
    (∃ st st', collectResponse demoLib (demoConfig 2 1) scenarioTwice = some st ∧
      collectResponse demoLib (demoConfig 2 1) scenarioTwice.reverse = some st' ∧
      st.sent.map (fun r => r.TTL) = st'.sent.map (fun r => r.TTL) ∧ st.eof = st'.eof ∧
      ((∀ e ∈ scenarioTwice, ∀ e' ∈ scenarioTwice, e.id = e'.id →
          outcomeOf demoLib e = outcomeOf demoLib e') →
        ∀ (t : Int) (key : String),
          (rowBucket st.sent t key).Perm (rowBucket st'.sent t key))) ∧
    (∀ (s s1 : State) (e : event), processEvent demoLib (demoConfig 2 1) s e = some s1 →
      ∀ j : Nat, j ≠ (e.sendTTL - 1).toNat → s1.response[j]? = s.response[j]?) :=
  order_independent demoLib (demoConfig 2 1) scenarioTwice scenarioTwice.reverse
    (by decide) (List.reverse_perm _).symm (by decide) (by decide)
    (by
      intro t h1 h2
      have h3 : t ≤ 2 := h2
      have : t = 1 ∨ t = 2 := by omega
      rcases this with rfl | rfl <;> decide)

/-- C5: when an event `e` was delivered before, delivering an event `e'` with the same id
(of any kind, source, rtt and any `sendTTL` in `[1, MaxTTL]`) changes nothing: the run
with `e'` and the run without it end in the same state (rows, processed ids, `lastTTL`,
cursor, rows sent, end flag), or both panic. -/
theorem duplicate_ignored (lib : Stdlib) (cfg : Config) (pre post : List event)
    (e e' : event) (he : e ∈ pre) (hid : e'.id = e.id)
    (h1 : 1 ≤ e'.sendTTL) (h2 : e'.sendTTL ≤ cfg.MaxTTL) :
    collectResponse lib cfg (pre ++ e' :: post) = collectResponse lib cfg (pre ++ post) := by
  unfold collectResponse
  cases hd : newAssembleResponse cfg.MaxTTL with
  | none => rfl
  | some data =>
    simp only
    rw [collectFrom_append, collectFrom_append]
    cases hs : collectFrom lib cfg (initState cfg data) pre with
    | none => rfl
    | some s =>
      simp only [Option.some_bind]
      by_cases hb : s.eof = true
      · rw [collectFrom_eof _ _ _ _ hb, collectFrom_eof _ _ _ _ hb]
      · have hb' : s.eof = false := by simpa using hb
        obtain ⟨hl, hm, _⟩ := collectFrom_some lib cfg pre _ s hs hb'
        have hlen : (data.length : Int) = cfg.MaxTTL := by
          unfold newAssembleResponse at hd
          split at hd
          · exact absurd hd (by simp)
          · cases hd; simp; omega
        have hstep : processEvent lib cfg s e' = some s := by
          apply processEvent_dup lib cfg s e' h1
          · rw [hl]; simp only [initState]; rw [hlen]; exact h2
          · rw [hid]; exact hm e he
        simp [collectFrom, hb, hstep]

theorem duplicate_ignored_witness :
    collectResponse demoLib (demoConfig 3 2)
        ([demoEvent eventType.eventTimeExceeded 1 1, demoEvent eventType.eventNoResponse 3 2]
          ++ demoEvent eventType.eventUnavailable 1 2
            :: [demoEvent eventType.eventTimeExceeded 2 1])
      = collectResponse demoLib (demoConfig 3 2)
        ([demoEvent eventType.eventTimeExceeded 1 1, demoEvent eventType.eventNoResponse 3 2]
          ++ [demoEvent eventType.eventTimeExceeded 2 1]) :=
  duplicate_ignored demoLib (demoConfig 3 2) _ _
    (demoEvent eventType.eventTimeExceeded 1 1) (demoEvent eventType.eventUnavailable 1 2)
    (by decide) (by decide) (by decide) (by decide)

/-- C6: for a Config with `MaxTTL ≥ 1` and `NumProbes ≥ 1` and events that are all
time-outs, with pairwise distinct ids and exactly `NumProbes` events for each TTL in
`1..MaxTTL`, `collectResponse` sends, in every arrival order, the `MaxTTL` rows of TTL
`1..MaxTTL`, each with the single bucket `"None"` holding `NumProbes` strings `"*"`, and
ends. -/
theorem all_timeouts (lib : Stdlib) (cfg : Config) (evs : List event)
    (hM : 1 ≤ cfg.MaxTTL) (hN : 1 ≤ cfg.NumProbes)
    (hids : (evs.map (fun e => e.id)).Nodup)
    (hev : ∀ e ∈ evs, e.eType = eventType.eventNoResponse ∧
      1 ≤ e.sendTTL ∧ e.sendTTL ≤ cfg.MaxTTL)
    (hcount : ∀ t : Int, 1 ≤ t → t ≤ cfg.MaxTTL → (probesAt evs t : Int) = cfg.NumProbes) :
    ∃ st, collectResponse lib cfg evs = some st ∧ st.eof = true ∧
      st.sent = (List.range cfg.MaxTTL.toNat).map (fun (i : Nat) =>
        ({ TTL := (i : Int) + 1
           PacketsForIP := [("None", List.replicate cfg.NumProbes.toNat "*")] }
          : ResponseForTTL)) := by
  obtain ⟨st, hrun, hI, hO⟩ := collect_sweep lib cfg cfg.MaxTTL evs hM (by omega)
    (fun e he => (hev e he).2) (distinctUpTo_of_nodup _ _ hids)
    (fun t h1 h2 => le_of_eq (hcount t h1 h2)) (Or.inl (le_refl _))
  have heof : st.eof = true := by
    by_contra hcon
    have hf : st.eof = false := by simpa using hcon
    obtain ⟨g1, g2⟩ := hO.init_going hf
    exact g1 (hcount _ (by omega) (by omega))
  have hc : st.currentRow = cfg.MaxTTL.toNat := by
    rcases hO.done heof with h | ⟨x, hx, hu, _⟩
    · simp only [initState] at h; omega
    · rw [(hev x hx).1] at hu; exact absurd hu (by decide)
  refine ⟨st, hrun, heof, ?_⟩
  have hrun' := hrun
  rw [collectResponse_eq _ _ _ (by omega)] at hrun'
  have hnone := collectFrom_onlyNone lib cfg evs _ st
    (by
      intro r hr
      simp only [initState, freshRows, List.mem_map] at hr
      obtain ⟨i, _, rfl⟩ := hr
      exact Or.inl rfl)
    (by intro r hr; simp [initState] at hr)
    (fun e he => (hev e he).1) hrun'
  rw [← hc]
  exact rows_eq_of_buckets st.sent st.currentRow _ hI.sentTTL
    (fun r hr => onlyNone_full r _ (hnone.2 r hr) hN (hI.sentFull r hr))

theorem all_timeouts_witness :
    ∃ st, collectResponse demoLib (demoConfig 2 2) scenarioSilent = some st ∧ st.eof = true ∧
      st.sent = (List.range (demoConfig 2 2).MaxTTL.toNat).map (fun (i : Nat) =>
        ({ TTL := (i : Int) + 1
           PacketsForIP := [("None", List.replicate (demoConfig 2 2).NumProbes.toNat "*")] }
          : ResponseForTTL)) :=
  all_timeouts demoLib (demoConfig 2 2) scenarioSilent (by decide) (by decide) (by decide)
    (by decide)
    (by
      intro t h1 h2
      have h3 : t ≤ 2 := h2
      have : t = 1 ∨ t = 2 := by omega
      rcases this with rfl | rfl <;> decide)

/-- C7, as stated, fails: `validateArgs` accepts `-p 65535 -q 1 -m 2`, whose two probes
exceed the remaining port space `65535 - 65535 = 0`, and the second call of
`connectionCheck` in `assemble` gets the port `65536`. -/
theorem validateArgs_ignores_port_space :
    validateArgs demoFlags = none ∧
    demoFlags.maxTTL * demoFlags.numProbes > 65535 - demoFlags.dstPort ∧
    assemble (mainConfig demoFlags demoDst demoHop) = [(1, 65535), (2, 65536)] := by
  decide

/-- C7, amended: `validateArgs` returns no error exactly when `dstPort ≥ 1`,
`parallelism ≥ 1`, `1 ≤ numProbes ≤ 10`, `1 ≤ maxTTL ≤ 255` and `timeout ≠ 0`; it does not
compare the number of probes with the port space. For accepted flags there are at most
2550 probes and the ports used by `assemble` lie in
`[dstPort, dstPort + maxTTL * numProbes)`. -/
theorem validateArgs_accepts (f : Flags) (dstAddr srcIP : Addr) :
    (validateArgs f = none ↔
      (1 ≤ f.dstPort ∧ 1 ≤ f.parallelism ∧ 1 ≤ f.numProbes ∧ f.numProbes ≤ 10 ∧
        1 ≤ f.maxTTL ∧ f.maxTTL ≤ 255 ∧ f.timeout ≠ 0)) ∧
    (validateArgs f = none →
      f.maxTTL * f.numProbes ≤ 2550 ∧
      ∀ p ∈ assemble (mainConfig f dstAddr srcIP),
        f.dstPort ≤ p.2 ∧ p.2 < f.dstPort + f.maxTTL * f.numProbes) := by
  have hiff : validateArgs f = none ↔
      (1 ≤ f.dstPort ∧ 1 ≤ f.parallelism ∧ 1 ≤ f.numProbes ∧ f.numProbes ≤ 10 ∧
        1 ≤ f.maxTTL ∧ f.maxTTL ≤ 255 ∧ f.timeout ≠ 0) := by
    unfold validateArgs
    constructor
    · intro h
      repeat' split at h
      all_goals try simp at h
      refine ⟨by omega, by omega, by omega, by omega, by omega, by omega, by assumption⟩
    · rintro ⟨a1, a2, a3, a4, a5, a6, a7⟩
      have b1 : ¬ f.dstPort ≤ 0 := by omega
      have b2 : ¬ f.parallelism ≤ 0 := by omega
      have b3 : ¬ f.numProbes ≤ 0 := by omega
      have b4 : ¬ f.numProbes > 10 := by omega
      have b5 : ¬ f.maxTTL ≤ 0 := by omega
      have b6 : ¬ f.maxTTL > 255 := by omega
      simp only [b1, b2, b3, b4, b5, b6, a7, if_false]
  refine ⟨hiff, fun h => ?_⟩
  obtain ⟨a1, a2, a3, a4, a5, a6, a7⟩ := hiff.mp h
  refine ⟨by nlinarith, ?_⟩
  intro p hp
  obtain ⟨_, _, h3, h4⟩ := probesOfHops_mem _ _ _ _ p hp
  simp only [mainConfig] at h3 h4
  have e1 : ((f.maxTTL.toNat : Nat) : Int) = f.maxTTL := Int.toNat_of_nonneg (by omega)
  have e2 : ((f.numProbes.toNat : Nat) : Int) = f.numProbes := Int.toNat_of_nonneg (by omega)
  rw [e1, e2] at h4
  exact ⟨h3, h4⟩

theorem validateArgs_accepts_witness :
    validateArgs defaultFlags = none ∧
      defaultFlags.maxTTL * defaultFlags.numProbes ≤ 2550 ∧
      ∀ p ∈ assemble (mainConfig defaultFlags demoDst demoHop),
        defaultFlags.dstPort ≤ p.2 ∧
          p.2 < defaultFlags.dstPort + defaultFlags.maxTTL * defaultFlags.numProbes :=
  ⟨by decide, (validateArgs_accepts defaultFlags demoDst demoHop).2 (by decide)⟩

/-- C8: for a packet read into the 1024-byte buffer `b` with length `n`, `serveICMP` sends
an event exactly when `n ≥ 32`, `b[0] = 11` and `b[24..27]` is the IPv4 form of the
configured destination; the event is then a Time Exceeded event whose id, TTL and send
time are those of the table entry for the port `256 * b[30] + b[31]`. -/
theorem serveICMP_filter (lib : Stdlib) (cfg : Config) (table : List (Int × packetInfo))
    (b : List Nat) (n : Int) (fromAddr : Addr) (now : Int)
    (hb : b.length = 1024) (hbytes : ∀ x ∈ b, x < 256) :
    ((serveICMP lib cfg table b n fromAddr now).isSome = true ↔
      (32 ≤ n ∧ b.getD 0 0 = 11 ∧
        [b.getD 24 0, b.getD 25 0, b.getD 26 0, b.getD 27 0] = lib.ipTo4 cfg.DstAddr.IP)) ∧
    (∀ e, serveICMP lib cfg table b n fromAddr now = some e →
      e = { eType := eventType.eventTimeExceeded
            id := (lookupPacket table ((256 * b.getD 30 0 + b.getD 31 0 : Nat) : Int)).id
            source := fromAddr
            sendTTL := (lookupPacket table ((256 * b.getD 30 0 + b.getD 31 0 : Nat) : Int)).ttl
            rtt := now
              - (lookupPacket table ((256 * b.getD 30 0 + b.getD 31 0 : Nat) : Int)).sendTime }) := by
  have h4 := take_four_drop b 24 (by omega)
  have h2 := take_two_drop b 30 (by omega)
  have hport : bigEndianUint16 ((b.drop 30).take 2) = 256 * b.getD 30 0 + b.getD 31 0 := by
    rw [h2]
    exact bigEndianUint16_pair _ _ (getD_lt_of_all b hbytes 30) (getD_lt_of_all b hbytes 31)
  unfold serveICMP
  rw [h4, hport]
  constructor
  · constructor
    · intro h
      split at h
      · exact absurd h (by simp)
      · split at h
        · exact absurd h (by simp)
        · split at h
          · exact absurd h (by simp)
          · rename_i c1 c2 c3
            exact ⟨by omega, by simpa using c2, by simpa using c3⟩
    · rintro ⟨c1, c2, c3⟩
      have d1 : ¬ n < 32 := by omega
      rw [if_neg d1, if_neg (not_not.mpr c2), if_neg (not_not.mpr c3)]
      rfl
  · intro e h
    split at h
    · exact absurd h (by simp)
    · split at h
      · exact absurd h (by simp)
      · split at h
        · exact absurd h (by simp)
        · simp only [Option.some.injEq] at h
          exact h.symm

theorem serveICMP_filter_witness :
    (serveICMP demoLib (demoConfig 2 1) (registerPacket [] 1 33434 0) (demoPacket 130 154)
        56 demoHop 5).isSome = true ∧
    ∀ e, serveICMP demoLib (demoConfig 2 1) (registerPacket [] 1 33434 0)
        (demoPacket 130 154) 56 demoHop 5 = some e →
      e.sendTTL = 1 ∧ e.id = 33434 := by
  have h := serveICMP_filter demoLib (demoConfig 2 1) (registerPacket [] 1 33434 0)
    (demoPacket 130 154) 56 demoHop 5
    (by
      simp only [demoPacket, List.length_append, List.length_replicate, List.length_cons,
        List.length_nil])
    (by
      intro x hx
      simp only [demoPacket, List.mem_append, List.mem_cons, List.mem_replicate,
        List.mem_singleton, List.not_mem_nil, or_false] at hx
      omega)
  refine ⟨h.1.mpr (by decide), fun e he => ?_⟩
  rw [h.2 e he]
  decide

/-- C9, as stated, fails: with `MaxTTL = 2` and `NumProbes = 1` the row of TTL 1 is sent
after the first time-out, and a second time-out with a new id and TTL 1 is still appended
to that row, which then holds two strings. -/
theorem sent_row_changes_on_new_id :
    (collectResponse demoLib (demoConfig 2 1)
      [demoEvent eventType.eventNoResponse 1 1]).map (fun s => s.sent)
      = some [{ TTL := 1, PacketsForIP := [("None", ["*"])] }] ∧
    (collectResponse demoLib (demoConfig 2 1)
      [demoEvent eventType.eventNoResponse 1 1,
        demoEvent eventType.eventNoResponse 2 1]).map (fun s => s.response.take 1)
      = some [{ TTL := 1, PacketsForIP := [("None", ["*", "*"])] }] := by
  decide

/-- C9, amended: when the events (with `sendTTL` in `[1, MaxTTL]`) carry at most
`NumProbes` distinct ids for each TTL, `collectResponse` returns after every prefix `p`
of the events, and the rows it has sent by then are, after the remaining events `q`,
still the first rows of `response.Data`, each with `NumProbes` outcome strings. -/
theorem rows_frozen (lib : Stdlib) (cfg : Config) (p q : List event)
    (hT : 0 ≤ cfg.MaxTTL)
    (hrange : ∀ e ∈ p ++ q, 1 ≤ e.sendTTL ∧ e.sendTTL ≤ cfg.MaxTTL)
    (hquota : ∀ t : Int, ((idsAt (p ++ q) t).card : Int) ≤ cfg.NumProbes) :
    ∃ sp sq, collectResponse lib cfg p = some sp ∧
      collectResponse lib cfg (p ++ q) = some sq ∧
      sq.response.take sp.currentRow = sp.sent ∧
      ∀ r ∈ sq.response.take sp.currentRow, (probesForTTL r : Int) = cfg.NumProbes := by
  obtain ⟨sp, hp, hQp, _, _⟩ :=
    quota_run lib cfg p _ q (Quota_init cfg (p ++ q) hT hrange hquota)
  obtain ⟨sq, hq, _, _, hfro⟩ := quota_run lib cfg q sp [] (by simpa using hQp)
  have hsame : sq.response.take sp.currentRow = sp.sent := by rw [hfro, hQp.same]
  refine ⟨sp, sq, ?_, ?_, hsame, ?_⟩
  · rw [collectResponse_eq _ _ _ hT]; exact hp
  · rw [collectResponse_eq _ _ _ hT, collectFrom_append, hp]; exact hq
  · rw [hsame]; exact hQp.inv.sentFull

theorem rows_frozen_witness :
    ∃ sp sq, collectResponse demoLib (demoConfig 2 1)
        [demoEvent eventType.eventNoResponse 1 1] = some sp ∧
      collectResponse demoLib (demoConfig 2 1)
        ([demoEvent eventType.eventNoResponse 1 1]
          ++ [demoEvent eventType.eventTimeExceeded 1 1,
              demoEvent eventType.eventNoResponse 2 2]) = some sq ∧
      sq.response.take sp.currentRow = sp.sent ∧
      ∀ r ∈ sq.response.take sp.currentRow,
        (probesForTTL r : Int) = (demoConfig 2 1).NumProbes :=
  rows_frozen demoLib (demoConfig 2 1) _ _ (by decide) (by decide)
    (by
      intro t
      have h : (idsAt ([demoEvent eventType.eventNoResponse 1 1]
          ++ [demoEvent eventType.eventTimeExceeded 1 1,
              demoEvent eventType.eventNoResponse 2 2]) t).card ≤ 1 := by
        by_cases h1 : t = 1
        · subst h1; decide
        · by_cases h2 : t = 2
          · subst h2; decide
          · have : idsAt ([demoEvent eventType.eventNoResponse 1 1]
                ++ [demoEvent eventType.eventTimeExceeded 1 1,
                    demoEvent eventType.eventNoResponse 2 2]) t = ∅ := by
              ext i
              rw [mem_idsAt]
              simp only [Finset.not_mem_empty, iff_false]
              rintro ⟨e, he, het, _⟩
              simp only [List.cons_append, List.nil_append, List.mem_cons,
                List.mem_singleton, List.not_mem_nil, or_false] at he
              rcases he with rfl | rfl | rfl
              · exact h1 het.symm
              · exact h1 het.symm
              · exact h2 het.symm
            rw [this]; simp
      have : (demoConfig 2 1).NumProbes = 1 := rfl
      omega)

/-- C10, at the failing input: with the probes of `assemble` registered, an ICMP Time
Exceeded packet for the configured destination whose embedded port `40000` is not in the
table passes the filter of `serveICMP`, which sends an event with `sendTTL = 0` and
`id = 0`; on that event `collectResponse` indexes `response.Data[-1]` and panics, also
after a first valid event. -/
theorem unmatched_icmp_panics :
    assemble (demoConfig 2 1) = [(1, 33434), (2, 33435)] ∧
    serveICMP demoLib (demoConfig 2 1)
        (registerPacket (registerPacket [] 1 33434 0) 2 33435 0)
        (demoPacket 156 64) 56 demoHop 5
      = some { eType := eventType.eventTimeExceeded, id := 0, source := demoHop,
               sendTTL := 0, rtt := 5 } ∧
    collectResponse demoLib (demoConfig 2 1)
        [{ eType := eventType.eventTimeExceeded, id := 0, source := demoHop,
           sendTTL := 0, rtt := 5 }] = none ∧
    collectResponse demoLib (demoConfig 2 1)
        [demoEvent eventType.eventNoResponse 33434 1,
         { eType := eventType.eventTimeExceeded, id := 0, source := demoHop,
           sendTTL := 0, rtt := 5 }] = none := by
  decide

/-! ## The probes of a run and the events they can cause -/

theorem probesOfHop_count (ttl t : Int) (n : Nat) :
    ∀ dstPort : Int, (probesOfHop ttl n dstPort).countP (fun p => decide (p.1 = t))
      = if ttl = t then n else 0 := by
  induction n with
  | zero => intro dstPort; simp [probesOfHop]
  | succ n ih =>
    intro dstPort
    rw [probesOfHop, List.countP_cons, ih]
    by_cases h : ttl = t <;> simp [h]

theorem probesOfHops_count (numProbes : Nat) (t : Int) (hops : Nat) :
    ∀ ttl dstPort : Int,
      (probesOfHops numProbes hops ttl dstPort).countP (fun p => decide (p.1 = t))
        = if ttl ≤ t ∧ t < ttl + hops then numProbes else 0 := by
  induction hops with
  | zero =>
    intro ttl dstPort
    have : ¬ (ttl ≤ t ∧ t < ttl + ((0 : Nat) : Int)) := by push_cast; omega
    rw [if_neg this]
    simp [probesOfHops]
  | succ hops ih =>
    intro ttl dstPort
    rw [probesOfHops, List.countP_append, probesOfHop_count, ih]
    by_cases h1 : ttl = t
    · have h2 : ¬ (ttl + 1 ≤ t ∧ t < ttl + 1 + hops) := by omega
      have h3 : ttl ≤ t ∧ t < ttl + ((hops + 1 : Nat) : Int) := by push_cast; omega
      rw [if_pos h1, if_neg h2, if_pos h3, Nat.add_zero]
    · by_cases h2 : ttl + 1 ≤ t ∧ t < ttl + 1 + hops
      · have h3 : ttl ≤ t ∧ t < ttl + ((hops + 1 : Nat) : Int) := by push_cast; omega
        rw [if_neg h1, if_pos h2, if_pos h3, Nat.zero_add]
      · have h3 : ¬ (ttl ≤ t ∧ t < ttl + ((hops + 1 : Nat) : Int)) := by push_cast; omega
        rw [if_neg h1, if_neg h2, if_neg h3]

theorem probesOfHop_increasing (ttl : Int) (n : Nat) :
    ∀ dstPort : Int, (probesOfHop ttl n dstPort).Pairwise (fun a b => a.2 < b.2) := by
  induction n with
  | zero => intro dstPort; simp [probesOfHop]
  | succ n ih =>
    intro dstPort
    rw [probesOfHop, List.pairwise_cons]
    refine ⟨?_, ih _⟩
    intro p hp
    have := (probesOfHop_mem ttl n (dstPort + 1) p hp).2.1
    show dstPort < p.2
    omega

theorem probesOfHops_increasing (numProbes : Nat) (hops : Nat) :
    ∀ ttl dstPort : Int,
      (probesOfHops numProbes hops ttl dstPort).Pairwise (fun a b => a.2 < b.2) := by
  induction hops with
  | zero => intro ttl dstPort; simp [probesOfHops]
  | succ hops ih =>
    intro ttl dstPort
    rw [probesOfHops, List.pairwise_append]
    refine ⟨probesOfHop_increasing _ _ _, ih _ _, ?_⟩
    intro a ha b hb
    have h1 := (probesOfHop_mem ttl numProbes dstPort a ha).2.2
    have h2 := (probesOfHops_mem numProbes hops _ _ b hb).2.2.1
    omega

/-- The probes that `assemble` dispatches have TTLs in `[1, MaxTTL]` and ports in
`[DstPort, DstPort + MaxTTL * NumProbes)`; no two probes share a port (the identity is
unique in a run); and each TTL in `[1, MaxTTL]` gets exactly `NumProbes` probes. -/
theorem assemble_probes (cfg : Config) :
    (∀ p ∈ assemble cfg, 1 ≤ p.1 ∧ p.1 ≤ cfg.MaxTTL ∧ cfg.DstPort ≤ p.2 ∧
      p.2 < cfg.DstPort + (cfg.MaxTTL.toNat : Int) * cfg.NumProbes.toNat) ∧
    ((assemble cfg).map (fun p => p.2)).Nodup ∧
    (∀ t : Int, 1 ≤ t → t ≤ cfg.MaxTTL →
      (assemble cfg).countP (fun p => decide (p.1 = t)) = cfg.NumProbes.toNat) := by
  refine ⟨?_, ?_, ?_⟩
  · intro p hp
    obtain ⟨h1, h2, h3, h4⟩ := probesOfHops_mem _ _ _ _ p hp
    exact ⟨h1, by omega, h3, h4⟩
  · unfold List.Nodup
    rw [List.pairwise_map]
    exact (probesOfHops_increasing _ _ _ _).imp (fun h => ne_of_lt h)
  · intro t h1 h2
    unfold assemble
    rw [probesOfHops_count]
    have : (1 : Int) ≤ t ∧ t < 1 + (cfg.MaxTTL.toNat : Int) := by omega
    rw [if_pos this]

/-- When every event carries the TTL and the port of a probe that `assemble`
dispatches (as the events of `connectionServe` and of `serveICMP` on a table hit do), the
events are in range and carry at most `NumProbes` distinct ids for each TTL. -/
theorem run_events_meet_quota (cfg : Config) (evs : List event)
    (hN : 0 ≤ cfg.NumProbes) (hev : ∀ e ∈ evs, (e.sendTTL, e.id) ∈ assemble cfg) :
    (∀ e ∈ evs, 1 ≤ e.sendTTL ∧ e.sendTTL ≤ cfg.MaxTTL) ∧
    ∀ t : Int, ((idsAt evs t).card : Int) ≤ cfg.NumProbes := by
  constructor
  · intro e he
    obtain ⟨h1, h2, _, _⟩ := probesOfHops_mem _ _ _ _ _ (hev e he)
    exact ⟨h1, by omega⟩
  · intro t
    have hsub : idsAt evs t
        ⊆ (((assemble cfg).filter (fun p => decide (p.1 = t))).map (fun p => p.2)).toFinset := by
      intro i hi
      rw [mem_idsAt] at hi
      obtain ⟨e, he, het, hei⟩ := hi
      rw [List.mem_toFinset, List.mem_map]
      refine ⟨(e.sendTTL, e.id), ?_, hei⟩
      rw [List.mem_filter]
      exact ⟨hev e he, by simpa using het⟩
    have h1 := Finset.card_le_card hsub
    have h2 := List.toFinset_card_le
      (((assemble cfg).filter (fun p => decide (p.1 = t))).map (fun p => p.2))
    rw [List.length_map, ← List.countP_eq_length_filter] at h2
    have h3 : (assemble cfg).countP (fun p => decide (p.1 = t)) ≤ cfg.NumProbes.toNat := by
      unfold assemble
      rw [probesOfHops_count]
      split <;> omega
    omega

theorem run_events_meet_quota_witness :
    (∀ e ∈ [demoEvent eventType.eventNoResponse 33434 1,
        demoEvent eventType.eventTimeExceeded 33434 1],
      1 ≤ e.sendTTL ∧ e.sendTTL ≤ (demoConfig 2 1).MaxTTL) ∧
    ∀ t : Int, ((idsAt [demoEvent eventType.eventNoResponse 33434 1,
        demoEvent eventType.eventTimeExceeded 33434 1] t).card : Int)
      ≤ (demoConfig 2 1).NumProbes :=
  run_events_meet_quota (demoConfig 2 1) _ (by decide) (by decide)

theorem lookupPacket_cases (table : List (Int × packetInfo)) (dstPort : Int) :
    lookupPacket table dstPort = { id := 0, ttl := 0, sendTime := 0 } ∨
      (dstPort, lookupPacket table dstPort) ∈ table := by
  induction table with
  | nil => exact Or.inl rfl
  | cons kv table ih =>
    obtain ⟨k, info⟩ := kv
    by_cases h : k = dstPort
    · right
      simp [lookupPacket, h]
    · rcases ih with h0 | h1
      · left; simp [lookupPacket, h, h0]
      · right
        simp only [lookupPacket, h, if_false]
        exact List.mem_cons_of_mem _ h1

/-- The function `connectionServe` sends at most one event, with the port as id and the TTL of its
probe; and when every table entry was written for a probe of `assemble`, an event that
`serveICMP` sends carries the TTL and port of such a probe, or else `sendTTL = 0` and
`id = 0` (the port of the packet is not in the table). -/
theorem event_sources (lib : Stdlib) (cfg : Config) (table : List (Int × packetInfo))
    (hreg : ∀ kv ∈ table, kv.2.id = kv.1 ∧ (kv.2.ttl, kv.1) ∈ assemble cfg) :
    (∀ (ttl dstPort sendTime now : Int) (err : readError) (e : event),
      connectionServe cfg ttl dstPort sendTime now err = some (some e) →
        e.id = dstPort ∧ e.sendTTL = ttl ∧ e.eType ≠ eventType.eventTimeExceeded) ∧
    (∀ (packetBuf : List Nat) (n : Int) (fromAddr : Addr) (now : Int) (e : event),
      serveICMP lib cfg table packetBuf n fromAddr now = some e →
        (e.sendTTL, e.id) ∈ assemble cfg ∨ (e.sendTTL = 0 ∧ e.id = 0)) := by
  constructor
  · intro ttl dstPort sendTime now err e h
    cases err <;> simp [connectionServe] at h
    · subst h; exact ⟨rfl, rfl, by simp⟩
    · subst h; exact ⟨rfl, rfl, by simp⟩
  · intro packetBuf n fromAddr now e h
    unfold serveICMP at h
    split at h
    · exact absurd h (by simp)
    · split at h
      · exact absurd h (by simp)
      · split at h
        · exact absurd h (by simp)
        · simp only [Option.some.injEq] at h
          subst h
          rcases lookupPacket_cases table
            ((bigEndianUint16 ((packetBuf.drop 30).take 2) : Nat) : Int) with h0 | h1
          · right; simp [h0]
          · left
            obtain ⟨hid, hmem⟩ := hreg _ h1
            simp only at hid hmem ⊢
            rw [hid]; exact hmem

theorem event_sources_witness :
    (∀ (ttl dstPort sendTime now : Int) (err : readError) (e : event),
      connectionServe (demoConfig 2 1) ttl dstPort sendTime now err = some (some e) →
        e.id = dstPort ∧ e.sendTTL = ttl ∧ e.eType ≠ eventType.eventTimeExceeded) ∧
    (∀ (packetBuf : List Nat) (n : Int) (fromAddr : Addr) (now : Int) (e : event),
      serveICMP demoLib (demoConfig 2 1)
          (registerPacket (registerPacket [] 1 33434 0) 2 33435 0)
          packetBuf n fromAddr now = some e →
        (e.sendTTL, e.id) ∈ assemble (demoConfig 2 1) ∨ (e.sendTTL = 0 ∧ e.id = 0)) :=
  event_sources demoLib (demoConfig 2 1)
    (registerPacket (registerPacket [] 1 33434 0) 2 33435 0) (by decide)

end Traceroute
